import Mathlib

/-!
# VNTR2kmers: region boundaries, boundary-table loading, haplotype selection, accumulation

A shallow embedding of `src/VNTR2kmers.cpp`.  `size_t` values are natural numbers
with every arithmetic operation reduced modulo `2 ^ 64`; `std::string` is `List Char`;
an `assert` that fails, an uncaught exception and an out-of-range `operator[]`
are results of their own, so that a run which goes on is told from one which stops.
-/

namespace VNTR2kmers

/-! ## Machine integers -/

/-- Number of values of a `size_t` (64 bit). -/
def SIZE : Nat := 2 ^ 64

/-- Unsigned `a - b` on `size_t`: the difference modulo `2 ^ 64`. -/
def usub (a b : Nat) : Nat := (a % SIZE + (SIZE - b % SIZE)) % SIZE

/-- Unsigned `a + b` on `size_t`. -/
def uadd (a b : Nat) : Nat := (a + b) % SIZE

/-- Unsigned `a * b` on `size_t`. -/
def umul (a b : Nat) : Nat := (a * b) % SIZE

/-! ## Boundary model (`flankStruct`, `getflanks`) -/

/-- The six offsets of `struct flankStruct`. -/
structure flankStruct where
  tr_l : Nat
  tr_r : Nat
  lntr_l : Nat
  lntr_r : Nat
  rntr_l : Nat
  rntr_r : Nat
  deriving DecidableEq, Repr

/-- A `vector<vector<size_t>>`. -/
abbrev SizeTable := List (List Nat)

/-- The read `sizeTable[i][j]`; `none` when an index is out of range
(`operator[]` has no defined result there). -/
def tableAt (t : SizeTable) (i j : Nat) : Option Nat :=
  match t[i]? with
  | none => none
  | some row => row[j]?

/-- The four flank sizes `lTRflanksize, rTRflanksize, lNTRflanksize, rNTRflanksize`
of `getflanks` (lines 31-41). -/
def flankSizes (sizeTable : SizeTable) (i n fs NTRsize : Nat) (hasConf : Bool) :
    Option (Nat × Nat × Nat × Nat) :=
  if hasConf then
    match tableAt sizeTable i (umul 3 n), tableAt sizeTable i (uadd (umul 3 n) 2) with
    | some lTRflanksize, some rTRflanksize =>
        some (lTRflanksize, rTRflanksize,
          (if lTRflanksize ≥ NTRsize then usub lTRflanksize NTRsize else 0),
          (if rTRflanksize ≥ NTRsize then usub rTRflanksize NTRsize else 0))
    | _, _ => none
  else
    some (fs, fs, usub fs NTRsize, usub fs NTRsize)

/-- The function `getflanks` (lines 28-49); the result is the value left in `out`. -/
def getflanks (sizeTable : SizeTable) (i n fs NTRsize k rlen : Nat) (hasConf : Bool) :
    Option flankStruct :=
  match flankSizes sizeTable i n fs NTRsize hasConf with
  | none => none
  | some (lTRflanksize, rTRflanksize, lNTRflanksize, rNTRflanksize) =>
      some { tr_l := lTRflanksize
             tr_r := rTRflanksize
             lntr_l := lNTRflanksize
             lntr_r := usub (usub rlen lTRflanksize) (usub k 1)
             rntr_l := usub (usub rlen rTRflanksize) (usub k 1)
             rntr_r := rNTRflanksize }

/-- Modelled from the spec: the extractor `buildNuKmers` is declared in `nuQueryFasta.h`,
which is not part of the sources; a window `(l, r)` on a sequence of length `rlen`
"spans `[left-trim, sequenceLength − right-trim)`", so its k-mers start at the
positions `p` with `l ≤ p` and `p + k ≤ rlen - r`. -/
def windowStarts (k rlen l r : Nat) : List Nat :=
  (List.range (rlen + 1)).filter (fun p => decide (l ≤ p ∧ p + k ≤ rlen - r))

/-- The offsets of `getflanks` with every subtraction clamped at zero, as the
specification words them (`max(0, a - b)` is the truncated subtraction of `Nat`). -/
def clampedFlanks (lTR rTR fs NTRsize k rlen : Nat) (hasConf : Bool) : flankStruct :=
  if hasConf then
    { tr_l := lTR, tr_r := rTR, lntr_l := lTR - NTRsize,
      lntr_r := rlen - lTR - (k - 1), rntr_l := rlen - rTR - (k - 1), rntr_r := rTR - NTRsize }
  else
    { tr_l := fs, tr_r := fs, lntr_l := fs - NTRsize,
      lntr_r := rlen - fs - (k - 1), rntr_l := rlen - fs - (k - 1), rntr_r := fs - NTRsize }

/-! ## Ways a run stops -/

/-- A `std::string`, as its characters. -/
abbrev Str := List Char

/-- How a run stops short of its normal end. -/
inductive Fault where
  /-- an `assert` does not hold: the program aborts -/
  | assertFailed
  /-- an exception nobody catches (`stoul`, `substr`): the program terminates -/
  | uncaught
  /-- an `operator[]` or iterator outside its container: no defined behaviour -/
  | outOfRange
  /-- the message `cannot find haplotype s` and `return 1` (lines 220-221) -/
  | missingHaplotype (s : Str)
  deriving DecidableEq, Repr

deriving instance DecidableEq for Except

/-! ## Boundary table loader (`readBedTable`) -/

/-- The white space of `isspace` in the C locale, which `ss >> entry` skips. -/
def isspace (c : Char) : Bool :=
  c == ' ' || c == '\t' || c == '\n' || c == '\r' || c.toNat == 11 || c.toNat == 12

/-- The successive values of `entry` read by `while (ss >> entry)` from a line. -/
def fields (line : Str) : List Str :=
  (List.splitOnP isspace line).filter (fun e => !e.isEmpty)

/-- Value of a string of decimal digits. -/
def decimal (ds : Str) : Nat :=
  ds.foldl (fun a c => 10 * a + (c.toNat - 48)) 0

/-- `std::stoul(entry)`: white space, an optional sign, then the longest run of decimal
digits; throws when there is no digit or the value does not fit an `unsigned long`; a
minus sign negates the value in unsigned arithmetic. -/
def stoul (entry : Str) : Except Fault Nat :=
  let s1 := entry.dropWhile isspace
  let minus : Bool := s1.head? == some '-'
  let s2 := if minus || s1.head? == some '+' then s1.tail else s1
  let ds := s2.takeWhile Char.isDigit
  if ds.isEmpty then .error .uncaught
  else if SIZE ≤ decimal ds then .error .uncaught
  else .ok (if minus then usub 0 (decimal ds) else decimal ds)

/-- An unsigned number: a non-empty string of decimal digits whose value is a `size_t`. -/
def isUnsignedNumber (e : Str) : Bool :=
  !e.isEmpty && e.all Char.isDigit && decide (decimal e < SIZE)

/-- The write `sizeTable[i][j] = v`. -/
def setAt (t : SizeTable) (i j v : Nat) : Except Fault SizeTable :=
  match t[i]? with
  | none => .error .outOfRange
  | some row => if j < row.length then .ok (t.set i (row.set j v)) else .error .outOfRange

/-- The loop `while (ss >> entry)` of lines 72-78 on the remaining entries of a line, for
haplotype `k` and locus row `i`, from field counter `j`. -/
def readEntries (k i : Nat) : List Str → Nat → SizeTable → Except Fault SizeTable
  | [], _, t => .ok t
  | entry :: rest, j, t =>
    if j < 7 then
      if j ≥ 4 then
        match stoul entry with
        | .error e => .error e
        | .ok v =>
          match setAt t i (usub (uadd (umul 3 k) j) 4) v with
          | .error e => .error e
          | .ok t2 => readEntries k i rest (j + 1) t2
      else readEntries k i rest (j + 1) t
    else .error .assertFailed

/-- The loop of lines 66-85 on the lines that follow the header, from locus row `i`. -/
def readLines (nloci k : Nat) : List Str → Nat → SizeTable → Except Fault SizeTable
  | [], _, t => .ok t
  | line :: rest, i, t =>
    if i < nloci then
      match readEntries k i (fields line) 0 t with
      | .error e => .error e
      | .ok t2 => readLines nloci k rest (i + 1) t2
    else .error .assertFailed

/-- A file that was opened, as the lines `getline` returns until the end of the file;
`none` is a file that cannot be opened. -/
abbrev FileText := Option (List Str)

/-- The body of the `for` loop of `readBedTable` (lines 62-85) for haplotype `k`, once its
file is chosen: `assert(f)`, the header line is read and dropped, then the data lines. -/
def loadFile (k : Nat) (f : FileText) (t : SizeTable) : Except Fault SizeTable :=
  match f with
  | none => .error .assertFailed
  | some lines => readLines t.length k (lines.drop 1) 0 t

/-- The stream `f` of haplotype `k` after lines 54-61: `configFiles[k]` when there are
explicit paths, else `haps[k] + "." + fsuffix` unless the suffix is `-`. With the suffix
`-` and no explicit paths nothing is opened: the default-constructed stream has no error
flag, so `assert(f)` passes, and `getline` and `peek` read nothing from it, which is the
stream of a file without lines. -/
def bedFile (files : Str → FileText) (fsuffix : Str) (haps configFiles : List Str)
    (k : Nat) : Except Fault FileText :=
  if configFiles.length ≠ 0 then
    match configFiles[k]? with
    | none => .error .outOfRange
    | some path => .ok (files path)
  else if fsuffix ≠ ['-'] then
    match haps[k]? with
    | none => .error .outOfRange
    | some h => .ok (files (h ++ '.' :: fsuffix))
  else .ok (some [])

/-- The iterations `k, k+1, ...` of the `for` loop of `readBedTable`, `m` of them. -/
def readBedFrom (files : Str → FileText) (fsuffix : Str) (haps configFiles : List Str) :
    Nat → Nat → SizeTable → Except Fault SizeTable
  | 0, _, t => .ok t
  | m + 1, k, t =>
    match bedFile files fsuffix haps configFiles k with
    | .error e => .error e
    | .ok f =>
      match loadFile k f t with
      | .error e => .error e
      | .ok t2 => readBedFrom files fsuffix haps configFiles m (k + 1) t2

/-- The function `readBedTable` (lines 51-95); the result is the table left in
`sizeTable`. -/
def readBedTable (files : Str → FileText) (fsuffix : Str) (haps configFiles : List Str)
    (sizeTable : SizeTable) : Except Fault SizeTable :=
  readBedFrom files fsuffix haps configFiles haps.length 0 sizeTable

/-- A table of `nloci` rows of `ncols` columns each (`sizeTable(nloci, vector(ncols))`). -/
def Shape (t : SizeTable) (nloci ncols : Nat) : Prop :=
  t.length = nloci ∧ ∀ row ∈ t, row.length = ncols

/-! ## Haplotype selection (`main`, lines 170-240) -/

/-- The catalog `haps` of lines 170-182. -/
def hapDB : List Str :=
  ["CHM1".toList, "CHM13".toList, "AK1.h0".toList, "AK1.h1".toList,
   "HG00514.h0".toList, "HG00514.h1".toList, "HG00733.h0".toList, "HG00733.h1".toList,
   "NA19240.h0".toList, "NA19240.h1".toList, "NA24385.h0".toList, "NA24385.h1".toList]

/-- The selection directive in force, by the order of the tests of lines 188-207:
`-fa` before `-all` before `-none` before `-exclude` before `-list`.  For `-fa` the count is
the `int` that `stoi` returns and the paths are the arguments after it; for `-exclude` and
`-list` the names are the arguments after the flag. -/
inductive Directive where
  | fa (n : Int) (paths : List Str)
  | all
  | noneCounted
  | exclude (names : List Str)
  | list (names : List Str)
  deriving DecidableEq, Repr

/-- What the selection leaves in `haps`, `clist` and `configFiles`, and whether the
warning of line 238 was printed. -/
structure Selection where
  haps : List Str
  clist : List Bool
  configFiles : List Str
  warned : Bool
  deriving DecidableEq, Repr

/-- An `int` converted to `size_t`, as in the comparison `i < stoi(...)` of line 197. -/
def sizeOfInt (n : Int) : Nat := (n % (SIZE : Int)).toNat

/-- The write `clist[i] = b`. -/
def setFlag (clist : List Bool) (i : Nat) (b : Bool) : Except Fault (List Bool) :=
  if i < clist.length then .ok (clist.set i b) else .error .outOfRange

/-- The loop `for (i = 0; i < bound; i++) clist[i] = 1` of lines 197-199, with `todo`
iterations left from index `i`. -/
def countFirst : Nat → Nat → List Bool → Except Fault (List Bool)
  | 0, _, clist => .ok clist
  | todo + 1, i, clist =>
    match setFlag clist i true with
    | .error e => .error e
    | .ok c => countFirst todo (i + 1) c

/-- The position `distance(haps.begin(), find(haps.begin(), haps.end(), s))` of the first
entry equal to `s`; the length of the list when there is none. -/
def findPos : List Str → Str → Nat
  | [], _ => 0
  | h :: rest, s => if h = s then 0 else findPos rest s + 1

/-- The loop over `tmp` of lines 218-228: a name that `find` does not meet in `haps` ends
the run with its message; otherwise the flag at the position `find` returns is set to
`value` (0 under `-exclude`, 1 under `-list`). -/
def flagNames (haps : List Str) (value : Bool) : List Str → List Bool → Except Fault (List Bool)
  | [], clist => .ok clist
  | s :: rest, clist =>
    if s ∈ haps then
      match setFlag clist (findPos haps s) value with
      | .error e => .error e
      | .ok c => flagNames haps value rest c
    else .error (.missingHaplotype s)

/-- The call `s.substr(pos, n)`: throws when `pos > s.size()`. -/
def substr (s : Str) (pos n : Nat) : Except Fault Str :=
  if pos > s.length then .error .uncaught else .ok ((s.drop pos).take n)

/-- The last character of a name as lines 234-235 take it:
`s.substr(s.length()-1, 1)`. -/
def lastChar (s : Str) : Except Fault Str :=
  substr s (usub s.length 1) 1

/-- One of the asserts of lines 234-235, `last(a) == d or last(b) == d`, on the two last
characters as `lastChar` returns them: the right operand counts only when the left one is
false, so that an exception thrown by it is met only then. -/
def assertEither (la lb : Except Fault Str) (d : Str) : Except Fault Unit :=
  match la with
  | .error e => .error e
  | .ok x =>
    if x = d then .ok ()
    else
      match lb with
      | .error e => .error e
      | .ok y => if y = d then .ok () else .error .assertFailed

/-- The three asserts of lines 233-235 on the names without their last character
(`pa`, `pb`) and on their last characters (`la`, `lb`). -/
def pairAsserts (pa pb la lb : Except Fault Str) : Except Fault Bool :=
  match pa, pb with
  | .ok x, .ok y =>
    if x = y then
      match assertEither la lb ['0'] with
      | .error e => .error e
      | .ok _ =>
        match assertEither la lb ['1'] with
        | .error e => .error e
        | .ok _ => .ok false
    else .error .assertFailed
  | .error e, _ => .error e
  | _, .error e => .error e

/-- The checks of lines 230-239 on the names; the result tells whether the warning was
printed. -/
def pairCheck (tmp : List Str) : Except Fault Bool :=
  match tmp with
  | [_] => .ok false
  | [a, b] =>
    pairAsserts (substr a 0 (usub a.length 1)) (substr b 0 (usub b.length 1))
      (lastChar a) (lastChar b)
  | _ => .ok true

/-- The branch of lines 207-240 for `-exclude` (`isEx = true`) and `-list`. -/
def selectNames (haps : List Str) (isEx : Bool) (tmp : List Str) : Except Fault Selection :=
  if tmp.length ≠ 0 then
    match flagNames haps (!isEx) tmp (List.replicate haps.length isEx) with
    | .error e => .error e
    | .ok clist =>
      match pairCheck tmp with
      | .error e => .error e
      | .ok w => .ok { haps := haps, clist := clist, configFiles := [], warned := w }
  else .error .assertFailed

/-- The branch of lines 188-200 for `-fa n paths`: `cArgs` are the arguments from the one
after `-c` to the last, the first of them being the suffix `*(it_c+1)`; `fsGiven` tells
whether `-fs` is among the arguments. -/
def selectFiles (cArgs : List Str) (fsGiven : Bool) (n : Int) (paths : List Str) :
    Except Fault Selection :=
  let nhap := paths.length
  let configFiles : Except Fault (List Str) :=
    match cArgs.head? with
    | none => .error .outOfRange
    | some suffix =>
      if suffix ≠ ['-'] then
        if nhap ≤ cArgs.length then .ok (cArgs.take nhap) else .error .outOfRange
      else if fsGiven then .ok [] else .error .assertFailed
  match configFiles with
  | .error e => .error e
  | .ok cf =>
    match countFirst (sizeOfInt n) 0 (List.replicate nhap false) with
    | .error e => .error e
    | .ok clist => .ok { haps := paths, clist := clist, configFiles := cf, warned := false }

/-- The haplotype selection of lines 185-240 from the catalog `haps`. -/
def resolve (haps : List Str) (cArgs : List Str) (fsGiven : Bool) :
    Directive → Except Fault Selection
  | .fa n paths => selectFiles cArgs fsGiven n paths
  | .all => .ok { haps := haps, clist := List.replicate haps.length true,
                  configFiles := [], warned := false }
  | .noneCounted => .ok { haps := haps, clist := List.replicate haps.length false,
                          configFiles := [], warned := false }
  | .exclude names => selectNames haps true names
  | .list names => selectNames haps false names

/-- The two phased copies of one individual, in the specification's words: two names
identical up to their final character, one ending in `0` and the other in `1`. -/
def PhasedPair (a b : Str) : Prop :=
  ∃ stem : Str, (a = stem ++ ['0'] ∧ b = stem ++ ['1']) ∨ (a = stem ++ ['1'] ∧ b = stem ++ ['0'])

/-- The haplotypes whose flag is set, in list order. -/
def counted (sel : Selection) : List Str :=
  ((sel.haps.zip sel.clist).filter (fun p => p.2)).map (fun p => p.1)

/-! ## Accumulation driver (`main`, lines 262-342) -/

/-- A `kmerCount_umap`: the count kept under a k-mer, `none` for a key that is absent. -/
abbrev KmerDB (κ : Type) := κ → Option Nat

/-- What the header `nuQueryFasta.h`, which is not part of the sources, fixes about the
k-mer tables: the key under which the k-mer of a sequence at a position is kept, and the
modulus of the counter type (0 for a counter that never wraps). -/
structure Extractor (κ : Type) where
  kmerAt : Str → Nat → Nat → κ
  cmod : Nat

/-- The update `db[x] += c`. -/
def addCount {κ : Type} [DecidableEq κ] (cmod : Nat) (db : KmerDB κ) (x : κ) (c : Nat) :
    KmerDB κ :=
  fun y => if y = x then some (((db y).getD 0 + c) % cmod) else db y

/-- Modelled from the spec: the extractor `buildNuKmers` of the absent `nuQueryFasta.h`,
"adding, for each k-mer of the window, its occurrence count (or 0 for built-only) to the
locus table"; the window `(leftflank, rightflank)` spans
`[left-trim, sequenceLength − right-trim)`. -/
def buildNuKmers {κ : Type} [DecidableEq κ] (X : Extractor κ) (db : KmerDB κ) (read : Str)
    (k leftflank rightflank : Nat) (count : Bool) : KmerDB κ :=
  ((windowStarts k read.length leftflank rightflank).map (X.kmerAt read k)).foldl
    (fun d x => addCount X.cmod d x (if count then 1 else 0)) db

/-- The three arrays `TRkmersDB`, `lNTRkmersDB`, `rNTRkmersDB` of lines 262-264
(`FRkmersDB` is never written). -/
structure Tables (κ : Type) where
  TRkmersDB : List (KmerDB κ)
  lNTRkmersDB : List (KmerDB κ)
  rNTRkmersDB : List (KmerDB κ)

/-- The arrays as allocated: `nloci` empty maps each. -/
def emptyTables (κ : Type) (nloci : Nat) : Tables κ :=
  { TRkmersDB := List.replicate nloci (fun _ => none)
    lNTRkmersDB := List.replicate nloci (fun _ => none)
    rNTRkmersDB := List.replicate nloci (fun _ => none) }

/-- The call `buildNuKmers(DB[i], read, k, l, r, count)` on one of the arrays. -/
def buildAt {κ : Type} [DecidableEq κ] (X : Extractor κ) (DB : List (KmerDB κ)) (i : Nat)
    (read : Str) (k l r : Nat) (count : Bool) : Except Fault (List (KmerDB κ)) :=
  match DB[i]? with
  | none => .error .outOfRange
  | some db => .ok (DB.set i (buildNuKmers X db read k l r count))

/-- The values `main` holds when the loop of line 266 runs. -/
structure Params where
  sizeTable : SizeTable
  fs : Nat
  NTRsize : Nat
  k : Nat
  hasConf : Bool

/-- The state of the loop over the lines of one sequence file: the buffer `read`, the
locus index `i` and the three arrays. -/
structure Scan (κ : Type) where
  read : Str
  i : Nat
  dbs : Tables κ

/-- The value of `fin.peek()` once a line is read: the first character of what follows,
the end of file (`none`) when nothing follows. -/
def peekOf : List Str → Option Char
  | [] => none
  | [] :: _ => some '\n'
  | (c :: _) :: _ => some c

/-- The three extractions of lines 290-295 (counted haplotype, `count` left to its default
`true`) and 312-317 (built-only haplotype, `count = false`) for the sequence `read` at
locus `i` of haplotype `n`. -/
def extractRecord {κ : Type} [DecidableEq κ] (X : Extractor κ) (P : Params) (n : Nat)
    (count : Bool) (read : Str) (i : Nat) (dbs : Tables κ) : Except Fault (Tables κ) :=
  match getflanks P.sizeTable i n P.fs P.NTRsize P.k read.length P.hasConf with
  | none => .error .outOfRange
  | some fl =>
    match buildAt X dbs.TRkmersDB i read P.k fl.tr_l fl.tr_r count with
    | .error e => .error e
    | .ok tr =>
      match buildAt X dbs.lNTRkmersDB i read P.k fl.lntr_l fl.lntr_r count with
      | .error e => .error e
      | .ok lntr =>
        match buildAt X dbs.rNTRkmersDB i read P.k fl.rntr_l fl.rntr_r count with
        | .error e => .error e
        | .ok rntr => .ok { TRkmersDB := tr, lNTRkmersDB := lntr, rNTRkmersDB := rntr }

/-- One turn of the loop `while (getline(fin, line))` (lines 282-301 and 306-339): `line`
is the line read and `peek` what `fin.peek()` returns after it. -/
def recordStep {κ : Type} [DecidableEq κ] (X : Extractor κ) (P : Params) (n : Nat)
    (count : Bool) (st : Scan κ) (line : Str) (peek : Option Char) : Except Fault (Scan κ) :=
  let read := if line.head? ≠ some '>' then st.read ++ line else st.read
  if peek = some '>' ∨ peek = none then
    if read ≠ [] then
      match extractRecord X P n count read st.i st.dbs with
      | .error e => .error e
      | .ok dbs => .ok { read := [], i := st.i + 1, dbs := dbs }
    else .ok { read := [], i := st.i + 1, dbs := st.dbs }
  else .ok { read := read, i := st.i, dbs := st.dbs }

/-- The loop over the lines of one sequence file. -/
def scanLines {κ : Type} [DecidableEq κ] (X : Extractor κ) (P : Params) (n : Nat)
    (count : Bool) : List Str → Scan κ → Except Fault (Scan κ)
  | [], st => .ok st
  | line :: rest, st =>
    match recordStep X P n count st line (peekOf rest) with
    | .error e => .error e
    | .ok st2 => scanLines X P n count rest st2

/-- The file opened for a haplotype (lines 270-275). -/
def seqFile (isFa masked : Bool) (fname : Str) : Str :=
  if isFa then fname
  else if masked then fname ++ ".combined-hap.fasta.masked.fix".toList
  else fname ++ ".combined-hap.fasta".toList

/-- The body of the loop of line 266 for haplotype `n`: the file is opened
(`assert(fin.is_open())`) and scanned from an empty buffer and locus 0, counting when
`clist[n] == 1`. -/
def runHap {κ : Type} [DecidableEq κ] (X : Extractor κ) (files : Str → FileText)
    (P : Params) (isFa masked : Bool) (n : Nat) (fname : Str) (count : Bool)
    (dbs : Tables κ) : Except Fault (Tables κ) :=
  match files (seqFile isFa masked fname) with
  | none => .error .assertFailed
  | some lines =>
    match scanLines X P n count lines { read := [], i := 0, dbs := dbs } with
    | .error e => .error e
    | .ok st => .ok st.dbs

/-- The loop `for (n = 0; n < nhap; n++)` of lines 266-342, on the haplotypes that remain
from index `n` on. -/
def accumulate {κ : Type} [DecidableEq κ] (X : Extractor κ) (files : Str → FileText)
    (P : Params) (isFa masked : Bool) (clist : List Bool) :
    List Str → Nat → Tables κ → Except Fault (Tables κ)
  | [], _, dbs => .ok dbs
  | fname :: rest, n, dbs =>
    match clist[n]? with
    | none => .error .outOfRange
    | some count =>
      match runHap X files P isFa masked n fname count dbs with
      | .error e => .error e
      | .ok dbs2 => accumulate X files P isFa masked clist rest (n + 1) dbs2

/-! ## The program (`main`) -/

/-- The values read from the command line (lines 125-165); `fs` is the value the variable
`fs` holds at line 153, whatever it is when `-fs` is absent. -/
structure Config where
  k : Nat
  NTRsize : Nat
  fs : Nat
  fsGiven : Bool
  threshold : Nat
  masked : Bool
  canonical_mode : Bool
  outfname : Str
  cArgs : List Str
  directive : Directive

/-- What the program meets outside itself: the files it can read, the files it can
create, and `countLoci` of the absent `nuQueryFasta.h`. -/
structure World where
  files : Str → FileText
  writable : Str → Bool
  countLoci : Str → Nat

/-- Whether the directive is `-fa`. -/
def Directive.isFa : Directive → Bool
  | .fa _ _ => true
  | _ => false

/-- Lines 243-256: the number of loci, the zero table of `nloci` rows and `3 * nhap`
columns, and the boundary files read into it unless the suffix is `-`. -/
def loadTable (w : World) (cfg : Config) (sel : Selection) : Except Fault (Nat × SizeTable) :=
  match sel.haps[0]?, cfg.cArgs.head? with
  | some h0, some suffix =>
    let nloci := w.countLoci
      (if cfg.directive.isFa then h0 else h0 ++ ".combined-hap.fasta".toList)
    let sizeTable := List.replicate nloci (List.replicate (umul 3 sel.haps.length) 0)
    if suffix ≠ ['-'] then
      match readBedTable w.files suffix sel.haps sel.configFiles sizeTable with
      | .error e => .error e
      | .ok t => .ok (nloci, t)
    else .ok (nloci, sizeTable)
  | _, _ => .error .outOfRange

/-- The function `main` from line 149 on; the result is the three arrays handed to
`writeKmers` (lines 349-353), and a `Fault` when the run stops before. -/
def run {κ : Type} [DecidableEq κ] (X : Extractor κ) (w : World) (cfg : Config) :
    Except Fault (Tables κ) :=
  if cfg.fs ≥ cfg.NTRsize then
    if w.writable (cfg.outfname ++ ".tr.kmers".toList) then
      match resolve hapDB cfg.cArgs cfg.fsGiven cfg.directive with
      | .error e => .error e
      | .ok sel =>
        match loadTable w cfg sel with
        | .error e => .error e
        | .ok (nloci, sizeTable) =>
          accumulate X w.files
            { sizeTable := sizeTable, fs := cfg.fs, NTRsize := cfg.NTRsize, k := cfg.k,
              hasConf := decide (cfg.cArgs.head? ≠ some ['-']) }
            cfg.directive.isFa cfg.masked sel.clist sel.haps 0 (emptyTables κ nloci)
    else .error .assertFailed
  else .error .assertFailed

/-- A haplotype as the driver meets it: the name under which its sequence file is opened,
its selection flag, and its three boundary columns (left TR flank, TR length, right TR
flank) at each locus. -/
structure Haplotype where
  name : Str
  counted : Bool
  bounds : Nat → Nat × Nat × Nat

/-- The boundary table of `nloci` rows whose columns `3n, 3n+1, 3n+2` are the boundary
columns of the `n`-th haplotype of the list. -/
def boundaryTable (nloci : Nat) (hs : List Haplotype) : SizeTable :=
  (List.range nloci).map (fun i =>
    hs.flatMap (fun h => [(h.bounds i).1, (h.bounds i).2.1, (h.bounds i).2.2]))

/-- A record of a sequence file: its marker line and the continuation lines after it. -/
structure Record where
  marker : Str
  lines : List Str

/-- The lines of a record as they stand in the file. -/
def Record.toLines (r : Record) : List Str := r.marker :: r.lines

/-- A record with a marker line (first character `>`) and one or more continuation
lines, each non-empty and not starting with `>`. -/
def Record.WellFormed (r : Record) : Prop :=
  r.marker.head? = some '>' ∧ r.lines ≠ [] ∧ ∀ l ∈ r.lines, l ≠ [] ∧ l.head? ≠ some '>'

/-- The calls the record-to-locus mapping speaks of, as pairs of a locus index and a
sequence: the `j`-th record gives the pair of `i + j` and the concatenation of its
continuation lines. -/
def recordCalls (recs : List Record) (i : Nat) : List (Nat × Str) :=
  (recs.map (fun r => r.lines.flatten)).enumFrom i

/-- One call of `getflanks` and of the three extractions (`extractRecord`, which takes
`read.size()` as `rlen`) for each pair of a locus index and a sequence, in order. -/
def extractCalls {κ : Type} [DecidableEq κ] (X : Extractor κ) (P : Params) (n : Nat)
    (count : Bool) : List (Nat × Str) → Tables κ → Except Fault (Tables κ)
  | [], dbs => .ok dbs
  | call :: rest, dbs =>
    match extractRecord X P n count call.2 call.1 dbs with
    | .error e => .error e
    | .ok dbs2 => extractCalls X P n count rest dbs2

/-- An extractor that keeps a k-mer under its own characters, with counters that do not
wrap. -/
def sampleExtractor : Extractor Str :=
  { kmerAt := fun read k p => (read.drop p).take k, cmod := 0 }

/-- Uniform mode with `fs = 2`, `NTRsize = 1`, `k = 3`. -/
def sampleParams : Params :=
  { sizeTable := [], fs := 2, NTRsize := 1, k := 3, hasConf := false }

/-- The two records `>1 ACGTACGT` and `>2 TTTT`. -/
def sampleRecords : List Record :=
  [{ marker := ">1".toList, lines := ["ACGTACGT".toList] },
   { marker := ">2".toList, lines := ["TTTT".toList] }]

/-- The configuration of `vntr2kmers -fs 2 -ntr 3 -k 3 -c - -o out -all`: a uniform flank
below the NTR size. -/
def sampleSmallFlank : Config :=
  { k := 3, NTRsize := 3, fs := 2, fsGiven := true, threshold := 0, masked := true,
    canonical_mode := true, outfname := "out".toList,
    cArgs := ["-".toList, "-o".toList, "out".toList, "-all".toList], directive := .all }

/-- A world without any file, where every output can be created. -/
def emptyWorld : World :=
  { files := fun _ => none, writable := fun _ => true, countLoci := fun _ => 0 }

/-! ## The increments a haplotype makes -/

/-- The three arrays. -/
inductive Region where
  | tr
  | lntr
  | rntr
  deriving DecidableEq, Repr

/-- One increment `DB[locus][kmer] += amount` of one of the three arrays. -/
structure Bump (κ : Type) where
  region : Region
  locus : Nat
  kmer : κ
  amount : Nat

/-- The increment `DB[i][x] += c` on an array; nothing outside the array. -/
def bumpAt {κ : Type} [DecidableEq κ] (cmod : Nat) (DB : List (KmerDB κ)) (i : Nat) (x : κ)
    (c : Nat) : List (KmerDB κ) :=
  match DB[i]? with
  | none => DB
  | some db => DB.set i (addCount cmod db x c)

/-- An increment carried out on the three arrays. -/
def applyBump {κ : Type} [DecidableEq κ] (cmod : Nat) (T : Tables κ) (b : Bump κ) : Tables κ :=
  match b.region with
  | .tr => { T with TRkmersDB := bumpAt cmod T.TRkmersDB b.locus b.kmer b.amount }
  | .lntr => { T with lNTRkmersDB := bumpAt cmod T.lNTRkmersDB b.locus b.kmer b.amount }
  | .rntr => { T with rNTRkmersDB := bumpAt cmod T.rNTRkmersDB b.locus b.kmer b.amount }

/-- The increments of one call of `buildNuKmers` on the window `(l, r)`. -/
def windowBumps {κ : Type} (X : Extractor κ) (region : Region) (read : Str) (k l r : Nat)
    (count : Bool) (i : Nat) : List (Bump κ) :=
  ((windowStarts k read.length l r).map (X.kmerAt read k)).map
    (fun x => Bump.mk region i x (if count then 1 else 0))

/-- The increments of the three extractions of a record, for arrays of `nloci` slots. -/
def recordBumps {κ : Type} (X : Extractor κ) (P : Params) (n : Nat) (count : Bool)
    (nloci : Nat) (read : Str) (i : Nat) : Except Fault (List (Bump κ)) :=
  match getflanks P.sizeTable i n P.fs P.NTRsize P.k read.length P.hasConf with
  | none => .error .outOfRange
  | some fl =>
    if i < nloci then
      .ok (windowBumps X .tr read P.k fl.tr_l fl.tr_r count i ++
        (windowBumps X .lntr read P.k fl.lntr_l fl.lntr_r count i ++
          windowBumps X .rntr read P.k fl.rntr_l fl.rntr_r count i))
    else .error .outOfRange

/-- The increments of the scan of the lines of a file, from the buffer `read` and the
locus `i`, where `record` gives the increments of a record. -/
def scanBumps {κ : Type} (record : Str → Nat → Except Fault (List (Bump κ))) :
    List Str → Str → Nat → Except Fault (List (Bump κ))
  | [], _, _ => .ok []
  | line :: rest, read, i =>
    let read2 := if line.head? ≠ some '>' then read ++ line else read
    if peekOf rest = some '>' ∨ peekOf rest = none then
      if read2 ≠ [] then
        match record read2 i with
        | .error e => .error e
        | .ok ops =>
          match scanBumps record rest [] (i + 1) with
          | .error e => .error e
          | .ok ops2 => .ok (ops ++ ops2)
      else scanBumps record rest [] (i + 1)
    else scanBumps record rest read2 i

/-- The increments a haplotype makes by itself: those of the scan of its file, with its own
boundary columns as the table. -/
def ownBumps {κ : Type} (X : Extractor κ) (files : Str → FileText) (fs NTRsize k : Nat)
    (hasConf isFa masked : Bool) (nloci : Nat) (h : Haplotype) :
    Except Fault (List (Bump κ)) :=
  match files (seqFile isFa masked h.name) with
  | none => .error .assertFailed
  | some lines =>
    scanBumps (recordBumps X (Params.mk (boundaryTable nloci [h]) fs NTRsize k hasConf) 0
      h.counted nloci) lines [] 0

/-- The haplotypes' increments carried out one haplotype after the other. -/
def foldBumps {κ : Type} [DecidableEq κ] (cmod : Nat)
    (own : Haplotype → Except Fault (List (Bump κ))) :
    List Haplotype → Tables κ → Except Fault (Tables κ)
  | [], T => .ok T
  | h :: rest, T =>
    match own h with
    | .error e => .error e
    | .ok ops => foldBumps cmod own rest (ops.foldl (applyBump cmod) T)

/-- Three arrays of `nloci` slots each. -/
def Sized {κ : Type} (T : Tables κ) (nloci : Nat) : Prop :=
  T.TRkmersDB.length = nloci ∧ T.lNTRkmersDB.length = nloci ∧ T.rNTRkmersDB.length = nloci

/-- Two sequence files of one locus each. -/
def sampleFiles : Str → FileText := fun path =>
  if path = "h1.fa".toList then some [">1".toList, "ACGTACGT".toList]
  else if path = "h2.fa".toList then some [">1".toList, "ACGT".toList, "TTTT".toList]
  else none

/-- A counted haplotype read from `h1.fa`. -/
def sampleH1 : Haplotype := { name := "h1.fa".toList, counted := true, bounds := fun _ => (2, 4, 2) }

/-- A built-only haplotype read from `h2.fa`. -/
def sampleH2 : Haplotype := { name := "h2.fa".toList, counted := false, bounds := fun _ => (3, 2, 3) }

/-- A boundary file of one header and two loci, 7 fields a line. -/
def sampleBed : List Str :=
  ["chr start end id lflank trlen rflank".toList,
   "chr1 100 200 a 1000 55 900".toList,
   "chr2\t300\t400\tb\t7\t8\t9".toList]

/-- A table of 2 loci and 2 haplotypes whose first haplotype is already loaded. -/
def sampleTable : SizeTable := [[11, 12, 13, 0, 0, 0], [21, 22, 23, 0, 0, 0]]

/-! ## Arithmetic helpers -/

theorem usub_eq_sub {a b : Nat} (ha : a < SIZE) (hb : b ≤ a) : usub a b = a - b := by
  unfold usub
  have hb' : b < SIZE := Nat.lt_of_le_of_lt hb ha
  rw [Nat.mod_eq_of_lt ha, Nat.mod_eq_of_lt hb']
  have h : a + (SIZE - b) = (a - b) + SIZE := by omega
  rw [h, Nat.add_mod_right]
  exact Nat.mod_eq_of_lt (by omega)

theorem usub_lt (a b : Nat) : usub a b < SIZE :=
  Nat.mod_lt _ (by unfold SIZE; positivity)

theorem usub_one {k : Nat} (hk : 1 ≤ k) (hk' : k ≤ SIZE) : usub k 1 = k - 1 := by
  rcases Nat.lt_or_ge k SIZE with h | h
  · exact usub_eq_sub h hk
  · have : k = SIZE := Nat.le_antisymm hk' h
    subst this
    unfold usub SIZE
    norm_num

theorem mem_windowStarts {k rlen l r p : Nat} :
    p ∈ windowStarts k rlen l r ↔ l ≤ p ∧ p + k ≤ rlen - r := by
  unfold windowStarts
  simp only [List.mem_filter, List.mem_range, decide_eq_true_eq]
  constructor
  · exact fun h => h.2
  · intro h
    exact ⟨by omega, h⟩

theorem nodup_windowStarts (k rlen l r : Nat) : (windowStarts k rlen l r).Nodup :=
  List.Nodup.filter _ (List.nodup_range _)

theorem getflanks_of_sizes {t : SizeTable} {i n fs NTRsize k rlen : Nat} {hasConf : Bool}
    {fl : flankStruct} (h : getflanks t i n fs NTRsize k rlen hasConf = some fl) :
    ∃ ln rn, flankSizes t i n fs NTRsize hasConf = some (fl.tr_l, fl.tr_r, ln, rn) ∧
      fl.lntr_l = ln ∧ fl.rntr_r = rn ∧
      fl.lntr_r = usub (usub rlen fl.tr_l) (usub k 1) ∧
      fl.rntr_l = usub (usub rlen fl.tr_r) (usub k 1) := by
  unfold getflanks at h
  cases hs : flankSizes t i n fs NTRsize hasConf with
  | none => rw [hs] at h; cases h
  | some q =>
    obtain ⟨l, r, ln, rn⟩ := q
    rw [hs] at h
    simp only [Option.some.injEq] at h
    subst h
    exact ⟨ln, rn, rfl, rfl, rfl, rfl, rfl⟩

theorem seam_offset {rlen f k : Nat} (hk : 1 ≤ k) (hrlen : rlen < SIZE)
    (hf : f + (k - 1) ≤ rlen) : usub (usub rlen f) (usub k 1) = rlen - f - (k - 1) := by
  have hk' : k ≤ SIZE := by omega
  rw [usub_one hk hk', usub_eq_sub hrlen (by omega), usub_eq_sub (by omega) (by omega)]

/-! ## Claims on the boundary model -/

/-- C1 (seamless k-mer partition): with `k ≥ 1`, `lntr_l ≤ tr_l`, `rntr_r ≤ tr_r` and
`tr_l + tr_r + (k-1) ≤ rlen`, the k-mer start positions of the left-NTR, TR and right-NTR
windows returned by `getflanks` are pairwise disjoint, their union is the set of start
positions of the window `(lntr_l, rntr_r)`, and for every way `kmerAt` of reading the
k-mer at a position the three extractions give the multiset of one scan. -/
theorem getflanks_seamless_partition (t : SizeTable) (i n fs NTRsize k rlen : Nat)
    (hasConf : Bool) (fl : flankStruct)
    (hget : getflanks t i n fs NTRsize k rlen hasConf = some fl)
    (hk : 1 ≤ k) (hrlen : rlen < SIZE)
    (hl : fl.lntr_l ≤ fl.tr_l) (hr : fl.rntr_r ≤ fl.tr_r)
    (hlen : fl.tr_l + fl.tr_r + (k - 1) ≤ rlen) :
    (∀ p, ¬ (p ∈ windowStarts k rlen fl.lntr_l fl.lntr_r ∧ p ∈ windowStarts k rlen fl.tr_l fl.tr_r)) ∧
    (∀ p, ¬ (p ∈ windowStarts k rlen fl.tr_l fl.tr_r ∧ p ∈ windowStarts k rlen fl.rntr_l fl.rntr_r)) ∧
    (∀ p, ¬ (p ∈ windowStarts k rlen fl.lntr_l fl.lntr_r ∧ p ∈ windowStarts k rlen fl.rntr_l fl.rntr_r)) ∧
    (∀ p, p ∈ windowStarts k rlen fl.lntr_l fl.rntr_r ↔
      (p ∈ windowStarts k rlen fl.lntr_l fl.lntr_r ∨ p ∈ windowStarts k rlen fl.tr_l fl.tr_r ∨
        p ∈ windowStarts k rlen fl.rntr_l fl.rntr_r)) ∧
    (∀ (κ : Type) (kmerAt : Nat → κ),
      (((windowStarts k rlen fl.lntr_l fl.lntr_r).map kmerAt : List κ) : Multiset κ) +
        (((windowStarts k rlen fl.tr_l fl.tr_r).map kmerAt : List κ) : Multiset κ) +
        (((windowStarts k rlen fl.rntr_l fl.rntr_r).map kmerAt : List κ) : Multiset κ) =
      (((windowStarts k rlen fl.lntr_l fl.rntr_r).map kmerAt : List κ) : Multiset κ)) := by
  obtain ⟨ln, rn, -, -, -, h1, h2⟩ := getflanks_of_sizes hget
  rw [seam_offset hk hrlen (by omega)] at h1 h2
  have d1 : ∀ p, ¬ (p ∈ windowStarts k rlen fl.lntr_l fl.lntr_r ∧
      p ∈ windowStarts k rlen fl.tr_l fl.tr_r) := by
    intro p; simp only [mem_windowStarts]; omega
  have d2 : ∀ p, ¬ (p ∈ windowStarts k rlen fl.tr_l fl.tr_r ∧
      p ∈ windowStarts k rlen fl.rntr_l fl.rntr_r) := by
    intro p; simp only [mem_windowStarts]; omega
  have d3 : ∀ p, ¬ (p ∈ windowStarts k rlen fl.lntr_l fl.lntr_r ∧
      p ∈ windowStarts k rlen fl.rntr_l fl.rntr_r) := by
    intro p; simp only [mem_windowStarts]; omega
  have hu : ∀ p, p ∈ windowStarts k rlen fl.lntr_l fl.rntr_r ↔
      (p ∈ windowStarts k rlen fl.lntr_l fl.lntr_r ∨ p ∈ windowStarts k rlen fl.tr_l fl.tr_r ∨
        p ∈ windowStarts k rlen fl.rntr_l fl.rntr_r) := by
    intro p; simp only [mem_windowStarts]; omega
  refine ⟨d1, d2, d3, hu, ?_⟩
  intro κ kmerAt
  have hnd : (windowStarts k rlen fl.lntr_l fl.lntr_r ++ (windowStarts k rlen fl.tr_l fl.tr_r ++
      windowStarts k rlen fl.rntr_l fl.rntr_r)).Nodup := by
    refine List.Nodup.append (nodup_windowStarts _ _ _ _) ?_ ?_
    · refine List.Nodup.append (nodup_windowStarts _ _ _ _) (nodup_windowStarts _ _ _ _) ?_
      intro p hp hq
      exact d2 p ⟨hp, hq⟩
    · intro p hp hq
      rcases List.mem_append.1 hq with hq | hq
      · exact d1 p ⟨hp, hq⟩
      · exact d3 p ⟨hp, hq⟩
  have hperm : List.Perm (windowStarts k rlen fl.lntr_l fl.lntr_r ++
      (windowStarts k rlen fl.tr_l fl.tr_r ++ windowStarts k rlen fl.rntr_l fl.rntr_r))
      (windowStarts k rlen fl.lntr_l fl.rntr_r) := by
    rw [List.perm_ext_iff_of_nodup hnd (nodup_windowStarts _ _ _ _)]
    intro p
    rw [hu p]
    simp only [List.mem_append]
  rw [Multiset.coe_add, Multiset.coe_add, Multiset.coe_eq_coe, List.append_assoc,
    ← List.map_append, ← List.map_append]
  exact hperm.map kmerAt

/-- Witness of C1: `ACGTACGT` (`rlen = 8`), `k = 3`, uniform flank 2, NTR size 1. -/
theorem getflanks_seamless_partition_witness :
    getflanks [] 0 0 2 1 3 8 false = some ⟨2, 2, 1, 4, 4, 1⟩ ∧
    windowStarts 3 8 1 4 = [1] ∧ windowStarts 3 8 2 2 = [2, 3] ∧ windowStarts 3 8 4 1 = [4] ∧
    windowStarts 3 8 1 1 = [1, 2, 3, 4] ∧
    (∀ (κ : Type) (kmerAt : Nat → κ),
      (((windowStarts 3 8 1 4).map kmerAt : List κ) : Multiset κ) +
        (((windowStarts 3 8 2 2).map kmerAt : List κ) : Multiset κ) +
        (((windowStarts 3 8 4 1).map kmerAt : List κ) : Multiset κ) =
      (((windowStarts 3 8 1 1).map kmerAt : List κ) : Multiset κ)) :=
  ⟨by decide, by decide, by decide, by decide, by decide,
    (getflanks_seamless_partition [] 0 0 2 1 3 8 false ⟨2, 2, 1, 4, 4, 1⟩ (by decide)
      (by decide) (by unfold SIZE; norm_num) (by decide) (by decide) (by decide)).2.2.2.2⟩

/-- C2 (seam equation): in both modes, for `k ≥ 1` and a sequence length (a `size_t`) with
`rlen ≥ leftTRflank + (k-1)` and `rlen ≥ rightTRflank + (k-1)`, where the TR flanks are
the table entries `[i][3n]`, `[i][3n+2]` (measured mode) or `fs` (uniform mode),
`getflanks` returns offsets with `tr_l = leftTRflank`, `tr_r = rightTRflank`,
`lntr_r + (k-1) = rlen - tr_l` and `rntr_l + (k-1) = rlen - tr_r`. -/
theorem getflanks_seam_equation (t : SizeTable) (i n fs NTRsize k rlen : Nat) (hasConf : Bool)
    (lTR rTR : Nat)
    (hL : if hasConf = true then tableAt t i (umul 3 n) = some lTR else lTR = fs)
    (hR : if hasConf = true then tableAt t i (uadd (umul 3 n) 2) = some rTR else rTR = fs)
    (hk : 1 ≤ k) (hrlen : rlen < SIZE)
    (hl : lTR + (k - 1) ≤ rlen) (hr : rTR + (k - 1) ≤ rlen) :
    ∃ fl, getflanks t i n fs NTRsize k rlen hasConf = some fl ∧
      fl.tr_l = lTR ∧ fl.tr_r = rTR ∧
      fl.lntr_r + (k - 1) = rlen - fl.tr_l ∧ fl.rntr_l + (k - 1) = rlen - fl.tr_r := by
  cases hasConf with
  | true =>
    simp only [if_true] at hL hR
    refine ⟨_, by simp only [getflanks, flankSizes, if_true, hL, hR]; rfl, rfl, rfl, ?_, ?_⟩
    · show usub (usub rlen lTR) (usub k 1) + (k - 1) = rlen - lTR
      rw [seam_offset hk hrlen hl]; omega
    · show usub (usub rlen rTR) (usub k 1) + (k - 1) = rlen - rTR
      rw [seam_offset hk hrlen hr]; omega
  | false =>
    simp only [Bool.false_eq_true, if_false] at hL hR
    refine ⟨_, by simp only [getflanks, flankSizes, Bool.false_eq_true, if_false]; rfl,
      hL.symm, hR.symm, ?_, ?_⟩
    · show usub (usub rlen fs) (usub k 1) + (k - 1) = rlen - fs
      rw [← hL, seam_offset hk hrlen hl]; omega
    · show usub (usub rlen fs) (usub k 1) + (k - 1) = rlen - fs
      rw [← hR, seam_offset hk hrlen hr]; omega

/-- Witness of C2: measured mode, one locus with flanks 5 and 7, `k = 3`, `rlen = 20`. -/
theorem getflanks_seam_equation_witness :
    ∃ fl, getflanks [[5, 9, 7]] 0 0 0 2 3 20 true = some fl ∧
      fl.tr_l = 5 ∧ fl.tr_r = 7 ∧
      fl.lntr_r + (3 - 1) = 20 - fl.tr_l ∧ fl.rntr_l + (3 - 1) = 20 - fl.tr_r :=
  getflanks_seam_equation [[5, 9, 7]] 0 0 0 2 3 20 true 5 7 (by decide) (by decide)
    (by decide) (by unfold SIZE; norm_num) (by decide) (by decide)

/-- C3 (measured-mode NTR clamp): for a table of `size_t` entries with rows of `3 * nhap`
columns, a locus `i` and a haplotype `n` in range and every `NTRsize`, `getflanks` with
`hasConf = true` returns `tr_l = table[i][3n]`, `tr_r = table[i][3n+2]`,
`lntr_l = max(0, table[i][3n] - NTRsize)` and `rntr_r = max(0, table[i][3n+2] - NTRsize)`
(the difference when the flank is at least `NTRsize`, else 0), the same for every `fs`. -/
theorem getflanks_measured_clamp (t : SizeTable) (nhap i n fs NTRsize k rlen : Nat)
    (hi : i < t.length) (hn : n < nhap) (hcols : ∀ row ∈ t, row.length = 3 * nhap)
    (hwide : 3 * nhap < SIZE) (hword : ∀ row ∈ t, ∀ x ∈ row, x < SIZE) :
    ∃ l r fl, tableAt t i (3 * n) = some l ∧ tableAt t i (3 * n + 2) = some r ∧
      getflanks t i n fs NTRsize k rlen true = some fl ∧
      fl.tr_l = l ∧ fl.tr_r = r ∧
      (fl.lntr_l : Int) = max 0 ((l : Int) - (NTRsize : Int)) ∧
      (fl.rntr_r : Int) = max 0 ((r : Int) - (NTRsize : Int)) ∧
      fl.lntr_l = (if NTRsize ≤ l then l - NTRsize else 0) ∧
      fl.rntr_r = (if NTRsize ≤ r then r - NTRsize else 0) ∧
      (∀ fs2, getflanks t i n fs2 NTRsize k rlen true = some fl) := by
  obtain ⟨row, hrow⟩ : ∃ row, t[i]? = some row := ⟨t[i], List.getElem?_eq_getElem hi⟩
  have hmem : row ∈ t := List.getElem?_mem hrow
  have hlen := hcols row hmem
  obtain ⟨l, hl⟩ : ∃ l, row[3 * n]? = some l :=
    ⟨row[3 * n], List.getElem?_eq_getElem (by omega)⟩
  obtain ⟨r, hr⟩ : ∃ r, row[3 * n + 2]? = some r :=
    ⟨row[3 * n + 2], List.getElem?_eq_getElem (by omega)⟩
  have hlw : l < SIZE := hword row hmem l (List.getElem?_mem hl)
  have hrw : r < SIZE := hword row hmem r (List.getElem?_mem hr)
  have e1 : umul 3 n = 3 * n := Nat.mod_eq_of_lt (by omega)
  have e2 : uadd (3 * n) 2 = 3 * n + 2 := Nat.mod_eq_of_lt (by omega)
  have tl : tableAt t i (3 * n) = some l := by simp only [tableAt, hrow, hl]
  have tr : tableAt t i (3 * n + 2) = some r := by simp only [tableAt, hrow, hr]
  have hg : ∀ fs2, getflanks t i n fs2 NTRsize k rlen true =
      some { tr_l := l, tr_r := r
             lntr_l := (if l ≥ NTRsize then usub l NTRsize else 0)
             lntr_r := usub (usub rlen l) (usub k 1)
             rntr_l := usub (usub rlen r) (usub k 1)
             rntr_r := (if r ≥ NTRsize then usub r NTRsize else 0) } := by
    intro fs2
    simp only [getflanks, flankSizes, if_true, e1, e2, tl, tr]
  have cl : (if l ≥ NTRsize then usub l NTRsize else 0) = if NTRsize ≤ l then l - NTRsize else 0 := by
    by_cases h : NTRsize ≤ l
    · simp only [ge_iff_le, h, if_true]; exact usub_eq_sub hlw h
    · simp only [ge_iff_le, h, if_false]
  have cr : (if r ≥ NTRsize then usub r NTRsize else 0) = if NTRsize ≤ r then r - NTRsize else 0 := by
    by_cases h : NTRsize ≤ r
    · simp only [ge_iff_le, h, if_true]; exact usub_eq_sub hrw h
    · simp only [ge_iff_le, h, if_false]
  refine ⟨l, r, _, tl, tr, hg fs, rfl, rfl, ?_, ?_, cl, cr, hg⟩
  · show (((if l ≥ NTRsize then usub l NTRsize else 0 : Nat)) : Int) = _
    rw [cl]; split <;> omega
  · show (((if r ≥ NTRsize then usub r NTRsize else 0 : Nat)) : Int) = _
    rw [cr]; split <;> omega

/-- Witness of C3: two loci, two haplotypes, `NTRsize = 800`; haplotype 1 at locus 1 has
left flank 1000 (NTR flank 200) and right flank 300 (clamped to 0). -/
theorem getflanks_measured_clamp_witness :
    ∃ l r fl, tableAt [[0, 0, 0, 0, 0, 0], [1, 2, 3, 1000, 50, 300]] 1 (3 * 1) = some l ∧
      tableAt [[0, 0, 0, 0, 0, 0], [1, 2, 3, 1000, 50, 300]] 1 (3 * 1 + 2) = some r ∧
      getflanks [[0, 0, 0, 0, 0, 0], [1, 2, 3, 1000, 50, 300]] 1 1 7 800 21 5000 true = some fl ∧
      fl.tr_l = l ∧ fl.tr_r = r ∧
      (fl.lntr_l : Int) = max 0 ((l : Int) - ((800 : Nat) : Int)) ∧
      (fl.rntr_r : Int) = max 0 ((r : Int) - ((800 : Nat) : Int)) ∧
      fl.lntr_l = (if 800 ≤ l then l - 800 else 0) ∧
      fl.rntr_r = (if 800 ≤ r then r - 800 else 0) ∧
      (∀ fs2, getflanks [[0, 0, 0, 0, 0, 0], [1, 2, 3, 1000, 50, 300]] 1 1 fs2 800 21 5000 true
        = some fl) :=
  getflanks_measured_clamp [[0, 0, 0, 0, 0, 0], [1, 2, 3, 1000, 50, 300]] 2 1 1 7 800 21 5000
    (by decide) (by decide) (by decide) (by unfold SIZE; norm_num)
    (by unfold SIZE; intro row hrow x hx; simp at hrow; rcases hrow with h | h <;> subst h <;> simp at hx <;> omega)

/-- C4, counterexample: the offsets are not the clamped formulas on every input.  In
uniform mode with `fs = 2 < NTRsize = 3`, `k = 3`, `rlen = 3`, `getflanks` returns
`lntr_l = rntr_r = 2^64 - 1` and `lntr_r = rntr_l = 2^64 - 1` where the clamped formulas
give 0; in measured mode with flanks 5 and 5, `k = 1`, `rlen = 4`, it returns
`lntr_r = rntr_l = 2^64 - 1` where the clamped formula gives 0. -/
theorem getflanks_wraps_counterexample :
    getflanks [] 0 0 2 3 3 3 false =
        some ⟨2, 2, 18446744073709551615, 18446744073709551615, 18446744073709551615,
          18446744073709551615⟩ ∧
      clampedFlanks 2 2 2 3 3 3 false = ⟨2, 2, 0, 0, 0, 0⟩ ∧
      getflanks [] 0 0 2 3 3 3 false ≠ some (clampedFlanks 2 2 2 3 3 3 false) ∧
    getflanks [[5, 0, 5]] 0 0 0 2 1 4 true =
        some ⟨5, 5, 3, 18446744073709551615, 18446744073709551615, 3⟩ ∧
      clampedFlanks 5 5 0 2 1 4 true = ⟨5, 5, 3, 0, 0, 3⟩ ∧
      getflanks [[5, 0, 5]] 0 0 0 2 1 4 true ≠ some (clampedFlanks 5 5 0 2 1 4 true) := by
  refine ⟨by decide, by decide, by decide, by decide, by decide, by decide⟩

/-- C4, amended: for `size_t` inputs, `tr_l` and `tr_r` are the TR flanks; in measured mode
`lntr_l` and `rntr_r` are the flank minus `NTRsize` clamped at zero on every input; the other
subtractions are plain unsigned subtractions, which equal the clamped formulas when they do
not underflow: `lntr_l = rntr_r = fs - NTRsize` in uniform mode when `NTRsize ≤ fs`,
`lntr_r = rlen - tr_l - (k-1)` when `k ≥ 1` and `tr_l + (k-1) ≤ rlen`,
`rntr_l = rlen - tr_r - (k-1)` when `k ≥ 1` and `tr_r + (k-1) ≤ rlen`; when all of these
hold the result is the clamped one. -/
theorem getflanks_clamped_when_no_underflow (t : SizeTable) (i n fs NTRsize k rlen : Nat)
    (hasConf : Bool) (fl : flankStruct)
    (hget : getflanks t i n fs NTRsize k rlen hasConf = some fl)
    (hrlen : rlen < SIZE) (hlw : fl.tr_l < SIZE) (hrw : fl.tr_r < SIZE) :
    (hasConf = false → fl.tr_l = fs ∧ fl.tr_r = fs) ∧
    (hasConf = true → tableAt t i (umul 3 n) = some fl.tr_l ∧
        tableAt t i (uadd (umul 3 n) 2) = some fl.tr_r) ∧
    (hasConf = true ∨ NTRsize ≤ fs →
      fl.lntr_l = fl.tr_l - NTRsize ∧ fl.rntr_r = fl.tr_r - NTRsize) ∧
    (1 ≤ k → fl.tr_l + (k - 1) ≤ rlen → fl.lntr_r = rlen - fl.tr_l - (k - 1)) ∧
    (1 ≤ k → fl.tr_r + (k - 1) ≤ rlen → fl.rntr_l = rlen - fl.tr_r - (k - 1)) ∧
    ((hasConf = true ∨ NTRsize ≤ fs) → 1 ≤ k → fl.tr_l + (k - 1) ≤ rlen →
        fl.tr_r + (k - 1) ≤ rlen →
      fl = clampedFlanks fl.tr_l fl.tr_r fs NTRsize k rlen hasConf) := by
  obtain ⟨ln, rn, hs, h1, h2, h3, h4⟩ := getflanks_of_sizes hget
  have hA : hasConf = false → fl.tr_l = fs ∧ fl.tr_r = fs := by
    intro hc
    subst hc
    simp only [flankSizes, Bool.false_eq_true, if_false, Option.some.injEq, Prod.mk.injEq] at hs
    exact ⟨hs.1.symm, hs.2.1.symm⟩
  have hB : hasConf = true → tableAt t i (umul 3 n) = some fl.tr_l ∧
      tableAt t i (uadd (umul 3 n) 2) = some fl.tr_r := by
    intro hc
    subst hc
    simp only [flankSizes, if_true] at hs
    split at hs
    · rename_i l r hl hr
      simp only [Option.some.injEq, Prod.mk.injEq] at hs
      rw [hl, hr, hs.1, hs.2.1]
      exact ⟨rfl, rfl⟩
    · cases hs
  have hC : hasConf = true ∨ NTRsize ≤ fs →
      fl.lntr_l = fl.tr_l - NTRsize ∧ fl.rntr_r = fl.tr_r - NTRsize := by
    intro hc
    cases hasConf with
    | true =>
      simp only [flankSizes, if_true] at hs
      split at hs
      · rename_i l r hl hr
        simp only [Option.some.injEq, Prod.mk.injEq] at hs
        obtain ⟨e1, e2, e3, e4⟩ := hs
        subst e1
        subst e2
        rw [h1, h2, ← e3, ← e4]
        constructor
        · by_cases h : NTRsize ≤ fl.tr_l
          · simp only [ge_iff_le, h, if_true]; exact usub_eq_sub hlw h
          · simp only [ge_iff_le, h, if_false]; omega
        · by_cases h : NTRsize ≤ fl.tr_r
          · simp only [ge_iff_le, h, if_true]; exact usub_eq_sub hrw h
          · simp only [ge_iff_le, h, if_false]; omega
      · cases hs
    | false =>
      have hfs : NTRsize ≤ fs := by
        rcases hc with hc | hc
        · cases hc
        · exact hc
      simp only [flankSizes, Bool.false_eq_true, if_false, Option.some.injEq,
        Prod.mk.injEq] at hs
      obtain ⟨e1, e2, e3, e4⟩ := hs
      rw [h1, h2, ← e3, ← e4, ← e1, ← e2]
      have : fs < SIZE := by rw [e1]; exact hlw
      exact ⟨usub_eq_sub this hfs, usub_eq_sub this hfs⟩
  have hD : 1 ≤ k → fl.tr_l + (k - 1) ≤ rlen → fl.lntr_r = rlen - fl.tr_l - (k - 1) :=
    fun hk hl => by rw [h3, seam_offset hk hrlen hl]
  have hE : 1 ≤ k → fl.tr_r + (k - 1) ≤ rlen → fl.rntr_l = rlen - fl.tr_r - (k - 1) :=
    fun hk hr => by rw [h4, seam_offset hk hrlen hr]
  refine ⟨hA, hB, hC, hD, hE, ?_⟩
  intro hc hk hl hr
  obtain ⟨c1, c2⟩ := hC hc
  have c3 := hD hk hl
  have c4 := hE hk hr
  cases hasConf with
  | true =>
    cases fl
    simp only [clampedFlanks, if_true, flankStruct.mk.injEq] at *
    refine ⟨?_, ?_, c1, c3, c4, c2⟩ <;> trivial
  | false =>
    obtain ⟨a1, a2⟩ := hA rfl
    cases fl
    simp only [clampedFlanks, Bool.false_eq_true, if_false, flankStruct.mk.injEq] at *
    exact ⟨a1, a2, by omega, by omega, by omega, by omega⟩

/-- Witness of C4 (amended): uniform mode, `fs = 2`, `NTRsize = 1`, `k = 3`, `rlen = 8`. -/
theorem getflanks_clamped_when_no_underflow_witness :
    getflanks [] 0 0 2 1 3 8 false = some ⟨2, 2, 1, 4, 4, 1⟩ ∧
    (⟨2, 2, 1, 4, 4, 1⟩ : flankStruct) = clampedFlanks 2 2 2 1 3 8 false :=
  ⟨by decide,
    (getflanks_clamped_when_no_underflow [] 0 0 2 1 3 8 false ⟨2, 2, 1, 4, 4, 1⟩ (by decide)
      (by unfold SIZE; norm_num) (by unfold SIZE; norm_num) (by unfold SIZE; norm_num)).2.2.2.2.2
      (Or.inr (by decide)) (by decide) (by decide) (by decide)⟩

/-! ## Sizes of the windows -/

/-- The number of k-mer start positions of a window. -/
theorem length_windowStarts (k rlen l r : Nat) :
    (windowStarts k rlen l r).length = (rlen - r + 1 - k) - l := by
  have hfin : (windowStarts k rlen l r).toFinset = Finset.Ico l (rlen - r + 1 - k) := by
    ext p
    rw [List.mem_toFinset, mem_windowStarts, Finset.mem_Ico]
    omega
  rw [← List.toFinset_card_of_nodup (nodup_windowStarts k rlen l r), hfin, Nat.card_Ico]

/-- The NTR flank offsets of `getflanks` where no subtraction underflows. -/
theorem ntr_offsets {t : SizeTable} {i n fs NTRsize k rlen : Nat} {hasConf : Bool}
    {fl : flankStruct} (hget : getflanks t i n fs NTRsize k rlen hasConf = some fl)
    (hlw : fl.tr_l < SIZE) (hrw : fl.tr_r < SIZE) (hc : hasConf = true ∨ NTRsize ≤ fs) :
    fl.lntr_l = fl.tr_l - NTRsize ∧ fl.rntr_r = fl.tr_r - NTRsize ∧
      (hasConf = false → fl.tr_l = fs ∧ fl.tr_r = fs) := by
  obtain ⟨ln, rn, hs, h1, h2, -, -⟩ := getflanks_of_sizes hget
  cases hasConf with
  | true =>
    simp only [flankSizes, if_true] at hs
    split at hs
    · rename_i l r hl hr
      simp only [Option.some.injEq, Prod.mk.injEq] at hs
      obtain ⟨e1, e2, e3, e4⟩ := hs
      subst e1
      subst e2
      rw [h1, h2, ← e3, ← e4]
      refine ⟨?_, ?_, fun h => by cases h⟩
      · by_cases h : NTRsize ≤ fl.tr_l
        · simp only [ge_iff_le, h, if_true]; exact usub_eq_sub hlw h
        · simp only [ge_iff_le, h, if_false]; omega
      · by_cases h : NTRsize ≤ fl.tr_r
        · simp only [ge_iff_le, h, if_true]; exact usub_eq_sub hrw h
        · simp only [ge_iff_le, h, if_false]; omega
    · cases hs
  | false =>
    have hfs : NTRsize ≤ fs := by
      rcases hc with hc | hc
      · cases hc
      · exact hc
    simp only [flankSizes, Bool.false_eq_true, if_false, Option.some.injEq,
      Prod.mk.injEq] at hs
    obtain ⟨e1, e2, e3, e4⟩ := hs
    have hfsw : fs < SIZE := by rw [e1]; exact hlw
    have hu := usub_eq_sub hfsw hfs
    refine ⟨by rw [h1, ← e3, hu, e1], by rw [h2, ← e4, hu, e2], fun _ => ⟨e1.symm, e2.symm⟩⟩

/-! ## Claims on the sizes of the windows -/

/-- C12, counterexample: in uniform mode with `uniformFlank = targetNTRsize = 2`, `k = 3`
and `rlen = 8 ≥ 2·2 + 2`, `getflanks` returns `lntr_l = rntr_r = 0` and
`lntr_r = rntr_l = 4`, so the left-NTR window `[0, 8 - 4)` and the right-NTR window
`[4, 8 - 0)` have width 4, not 0, and hold the k-mer start positions `0, 1` and `4, 5`. -/
theorem getflanks_degenerate_counterexample :
    getflanks [] 0 0 2 2 3 8 false = some ⟨2, 2, 0, 4, 4, 0⟩ ∧
    (0 : Nat) < 8 - 4 ∧ (4 : Nat) < 8 - 0 ∧
    windowStarts 3 8 0 4 = [0, 1] ∧ windowStarts 3 8 4 0 = [4, 5] := by
  refine ⟨by decide, by decide, by decide, by decide, by decide⟩

/-- C12, amended: in uniform mode with `uniformFlank = targetNTRsize`, for `k ≥ 1` and a
sequence length (a `size_t`) with `rlen ≥ 2·uniformFlank + (k-1)`, `getflanks` returns
`tr_l = tr_r = uniformFlank` and `lntr_l = rntr_r = 0`: the left-NTR window is
`[0, uniformFlank + (k-1))` and the right-NTR window `[rlen - uniformFlank - (k-1), rlen)`;
the NTR windows take up the whole flanks and hold `uniformFlank` k-mer start positions
each, the left one the positions below `uniformFlank`. -/
theorem getflanks_uniform_full_flank (t : SizeTable) (i n fs k rlen : Nat)
    (hk : 1 ≤ k) (hrlen : rlen < SIZE) (hlen : 2 * fs + (k - 1) ≤ rlen) :
    ∃ fl, getflanks t i n fs fs k rlen false = some fl ∧
      fl.tr_l = fs ∧ fl.tr_r = fs ∧ fl.lntr_l = 0 ∧ fl.rntr_r = 0 ∧
      rlen - fl.lntr_r = fs + (k - 1) ∧ fl.rntr_l = rlen - fs - (k - 1) ∧
      (∀ p, p ∈ windowStarts k rlen fl.lntr_l fl.lntr_r ↔ p < fs) ∧
      (windowStarts k rlen fl.lntr_l fl.lntr_r).length = fs ∧
      (∀ p, p ∈ windowStarts k rlen fl.rntr_l fl.rntr_r ↔
        rlen - fs - (k - 1) ≤ p ∧ p + k ≤ rlen) ∧
      (windowStarts k rlen fl.rntr_l fl.rntr_r).length = fs := by
  have hfs : fs < SIZE := by omega
  have h0 : usub fs fs = 0 := by rw [usub_eq_sub hfs (Nat.le_refl _)]; omega
  have hs : usub (usub rlen fs) (usub k 1) = rlen - fs - (k - 1) :=
    seam_offset hk hrlen (by omega)
  refine ⟨⟨fs, fs, 0, rlen - fs - (k - 1), rlen - fs - (k - 1), 0⟩, ?_, rfl, rfl, rfl, rfl,
    ?_, rfl, ?_, ?_, ?_, ?_⟩
  · simp only [getflanks, flankSizes, Bool.false_eq_true, if_false, h0, hs]
  · show rlen - (rlen - fs - (k - 1)) = fs + (k - 1)
    omega
  · intro p
    rw [mem_windowStarts]
    show 0 ≤ p ∧ p + k ≤ rlen - (rlen - fs - (k - 1)) ↔ p < fs
    omega
  · rw [length_windowStarts]
    show rlen - (rlen - fs - (k - 1)) + 1 - k - 0 = fs
    omega
  · intro p
    rw [mem_windowStarts]
    show rlen - fs - (k - 1) ≤ p ∧ p + k ≤ rlen - 0 ↔ _
    omega
  · rw [length_windowStarts]
    show rlen - 0 + 1 - k - (rlen - fs - (k - 1)) = fs
    omega

/-- Witness of C12 (amended): `uniformFlank = targetNTRsize = 2`, `k = 3`, `rlen = 8`. -/
theorem getflanks_uniform_full_flank_witness :
    ∃ fl, getflanks [] 0 0 2 2 3 8 false = some fl ∧
      fl.tr_l = 2 ∧ fl.tr_r = 2 ∧ fl.lntr_l = 0 ∧ fl.rntr_r = 0 ∧
      8 - fl.lntr_r = 2 + (3 - 1) ∧ fl.rntr_l = 8 - 2 - (3 - 1) ∧
      (∀ p, p ∈ windowStarts 3 8 fl.lntr_l fl.lntr_r ↔ p < 2) ∧
      (windowStarts 3 8 fl.lntr_l fl.lntr_r).length = 2 ∧
      (∀ p, p ∈ windowStarts 3 8 fl.rntr_l fl.rntr_r ↔ 8 - 2 - (3 - 1) ≤ p ∧ p + 3 ≤ 8) ∧
      (windowStarts 3 8 fl.rntr_l fl.rntr_r).length = 2 :=
  getflanks_uniform_full_flank [] 0 0 2 3 8 (by decide) (by unfold SIZE; norm_num)
    (by decide)

/-- C17 (NTR window size): for `k ≥ 1` and a sequence length (a `size_t`) with
`rlen ≥ tr_l + tr_r + (k-1)`, in measured mode or in uniform mode with `fs ≥ NTRsize`, the
left-NTR window of `getflanks` holds exactly the k-mer start positions
`lntr_l, ..., tr_l - 1`, which are `tr_l - lntr_l = min(NTRsize, tr_l)` positions
(`NTRsize` in uniform mode); the right-NTR window holds exactly `min(NTRsize, tr_r)`
positions (`NTRsize` in uniform mode), and the TR window exactly
`rlen - tr_l - tr_r - (k-1)` positions. -/
theorem getflanks_window_sizes (t : SizeTable) (i n fs NTRsize k rlen : Nat) (hasConf : Bool)
    (fl : flankStruct) (hget : getflanks t i n fs NTRsize k rlen hasConf = some fl)
    (hk : 1 ≤ k) (hrlen : rlen < SIZE) (hlen : fl.tr_l + fl.tr_r + (k - 1) ≤ rlen)
    (hmode : hasConf = true ∨ NTRsize ≤ fs) :
    (∀ p, p ∈ windowStarts k rlen fl.lntr_l fl.lntr_r ↔ fl.lntr_l ≤ p ∧ p < fl.tr_l) ∧
    (windowStarts k rlen fl.lntr_l fl.lntr_r).length = fl.tr_l - fl.lntr_l ∧
    fl.tr_l - fl.lntr_l = min NTRsize fl.tr_l ∧
    (windowStarts k rlen fl.rntr_l fl.rntr_r).length = min NTRsize fl.tr_r ∧
    (hasConf = false → (windowStarts k rlen fl.lntr_l fl.lntr_r).length = NTRsize ∧
      (windowStarts k rlen fl.rntr_l fl.rntr_r).length = NTRsize) ∧
    (windowStarts k rlen fl.tr_l fl.tr_r).length = rlen - fl.tr_l - fl.tr_r - (k - 1) := by
  obtain ⟨ln, rn, -, -, -, h3, h4⟩ := getflanks_of_sizes hget
  rw [seam_offset hk hrlen (by omega)] at h3 h4
  obtain ⟨c1, c2, c3⟩ := ntr_offsets hget (by omega) (by omega) hmode
  have hL : (windowStarts k rlen fl.lntr_l fl.lntr_r).length = fl.tr_l - fl.lntr_l := by
    rw [length_windowStarts]; omega
  have hR : (windowStarts k rlen fl.rntr_l fl.rntr_r).length = min NTRsize fl.tr_r := by
    rw [length_windowStarts]; omega
  refine ⟨?_, hL, by omega, hR, ?_, ?_⟩
  · intro p
    rw [mem_windowStarts]
    omega
  · intro hu
    obtain ⟨e1, e2⟩ := c3 hu
    have hfs : NTRsize ≤ fs := by
      rcases hmode with h | h
      · rw [hu] at h; cases h
      · exact h
    constructor
    · rw [hL]; omega
    · rw [hR]; omega
  · rw [length_windowStarts]; omega

/-- Witness of C17: `ACGTACGT` (`rlen = 8`), `k = 3`, uniform flank 2, NTR size 1: one
k-mer in each NTR window and two in the TR window. -/
theorem getflanks_window_sizes_witness :
    getflanks [] 0 0 2 1 3 8 false = some ⟨2, 2, 1, 4, 4, 1⟩ ∧
    (windowStarts 3 8 1 4).length = 2 - 1 ∧ (windowStarts 3 8 4 1).length = min 1 2 ∧
    (windowStarts 3 8 2 2).length = 8 - 2 - 2 - (3 - 1) :=
  have h := getflanks_window_sizes [] 0 0 2 1 3 8 false ⟨2, 2, 1, 4, 4, 1⟩ (by decide)
    (by decide) (by unfold SIZE; norm_num) (by decide) (Or.inr (by decide))
  ⟨by decide, h.2.1, h.2.2.2.1, h.2.2.2.2.2⟩

/-! ## Lemmas on the boundary table loader -/

theorem setAt_ok {t : SizeTable} {nloci ncols i j : Nat} (v : Nat)
    (hs : Shape t nloci ncols) (hi : i < nloci) (hj : j < ncols) :
    ∃ t2, setAt t i j v = .ok t2 ∧ Shape t2 nloci ncols ∧
      ∀ i2 j2, tableAt t2 i2 j2 = if i2 = i ∧ j2 = j then some v else tableAt t i2 j2 := by
  obtain ⟨hlen, hrows⟩ := hs
  have hi' : i < t.length := by omega
  have hrow : t[i]? = some t[i] := List.getElem?_eq_getElem hi'
  have hrl : (t[i]).length = ncols := hrows _ (List.getElem_mem hi')
  refine ⟨t.set i ((t[i]).set j v), ?_, ⟨?_, ?_⟩, ?_⟩
  · simp only [setAt, hrow, hrl, hj, if_true]
  · rw [List.length_set]; exact hlen
  · intro row hmem
    rcases List.mem_or_eq_of_mem_set hmem with h | h
    · exact hrows row h
    · rw [h, List.length_set]; exact hrl
  · intro i2 j2
    unfold tableAt
    rw [List.getElem?_set]
    by_cases hii : i = i2
    · subst hii
      simp only [if_true, hi', hrow, true_and]
      rw [List.getElem?_set]
      by_cases hjj : j = j2
      · subst hjj
        simp only [if_true, hrl, hj]
      · have : ¬ j2 = j := fun h => hjj h.symm
        simp only [hjj, this, if_false]
    · have : ¬ i2 = i := fun h => hii h.symm
      simp only [hii, this, if_false, false_and]

theorem column_index {k j : Nat} (hj : 4 ≤ j) (hlt : 3 * k + j - 4 < SIZE) (hk : 3 * k < SIZE) :
    usub (uadd (umul 3 k) j) 4 = 3 * k + j - 4 := by
  unfold usub uadd umul SIZE at *
  omega

/-- Result of `readEntries` when at most 7 fields are read in all and every field from
position 4 on is accepted by `stoul`. -/
theorem readEntries_ok (k i nloci ncols : Nat) (hi : i < nloci) (hcol : 3 * k + 3 ≤ ncols)
    (hwide : ncols < SIZE) :
    ∀ (es : List Str) (j : Nat) (t : SizeTable), j + es.length ≤ 7 →
      (∀ m e, es[m]? = some e → 4 ≤ j + m → ∃ v, stoul e = .ok v) →
      Shape t nloci ncols →
      ∃ t2, readEntries k i es j t = .ok t2 ∧ Shape t2 nloci ncols ∧
        (∀ m e v, es[m]? = some e → 4 ≤ j + m → stoul e = .ok v →
          tableAt t2 i (3 * k + (j + m) - 4) = some v) ∧
        (∀ i2 j2, (i2 ≠ i ∨ j2 < 3 * k + (j - 4) ∨ 3 * k + (j + es.length) - 4 ≤ j2) →
          tableAt t2 i2 j2 = tableAt t i2 j2) := by
  intro es
  induction es with
  | nil =>
    intro j t _ _ hs
    exact ⟨t, rfl, hs, fun m e v h => by simp at h, fun _ _ _ => rfl⟩
  | cons entry rest ih =>
    intro j t hj hnum hs
    simp only [List.length_cons] at hj
    have hj7 : j < 7 := by omega
    by_cases h4 : 4 ≤ j
    · obtain ⟨v, hv⟩ := hnum 0 entry (List.getElem?_cons_zero) (by omega)
      have hcolj : usub (uadd (umul 3 k) j) 4 = 3 * k + j - 4 :=
        column_index h4 (by omega) (by omega)
      obtain ⟨t1, ht1, hs1, hat1⟩ := setAt_ok (i := i) (j := 3 * k + j - 4) v hs hi (by omega)
      obtain ⟨t2, ht2, hs2, hw2, hu2⟩ := ih (j + 1) t1 (by omega)
        (fun m e he hm => hnum (m + 1) e (by simpa using he) (by omega)) hs1
      refine ⟨t2, ?_, hs2, ?_, ?_⟩
      · simp only [readEntries, hj7, if_true, ge_iff_le, h4, hv, hcolj, ht1, ht2]
      · intro m e w he hm hw
        cases m with
        | zero =>
          simp only [List.getElem?_cons_zero, Option.some.injEq] at he
          subst he
          have hvw : v = w := by
            rw [hv] at hw
            exact Except.ok.inj hw
          subst hvw
          have e0 : 3 * k + (j + 0) - 4 = 3 * k + j - 4 := by omega
          rw [e0, hu2 i (3 * k + j - 4) (Or.inr (Or.inl (by omega))), hat1]
          simp only [and_self, if_true]
        | succ m =>
          have e1 : 3 * k + (j + (m + 1)) - 4 = 3 * k + (j + 1 + m) - 4 := by omega
          rw [e1]
          exact hw2 m e w (by simpa using he) (by omega) hw
      · intro i2 j2 hout
        rw [hu2 i2 j2 (by simp only [List.length_cons] at hout; omega), hat1]
        have : ¬ (i2 = i ∧ j2 = 3 * k + j - 4) := by
          simp only [List.length_cons] at hout
          omega
        simp only [this, if_false]
    · obtain ⟨t2, ht2, hs2, hw2, hu2⟩ := ih (j + 1) t (by omega)
        (fun m e he hm => hnum (m + 1) e (by simpa using he) (by omega)) hs
      refine ⟨t2, ?_, hs2, ?_, ?_⟩
      · simp only [readEntries, hj7, if_true, ge_iff_le, h4, if_false, ht2]
      · intro m e w he hm hw
        cases m with
        | zero => omega
        | succ m =>
          have e1 : 3 * k + (j + (m + 1)) - 4 = 3 * k + (j + 1 + m) - 4 := by omega
          rw [e1]
          exact hw2 m e w (by simpa using he) (by omega) hw
      · intro i2 j2 hout
        exact hu2 i2 j2 (by simp only [List.length_cons] at hout; omega)

/-- An eighth field stops `readEntries`, whatever comes before it. -/
theorem readEntries_error (k i : Nat) :
    ∀ (es : List Str) (j : Nat) (t : SizeTable), j ≤ 7 → 7 < j + es.length →
      ∃ e, readEntries k i es j t = .error e := by
  intro es
  induction es with
  | nil => intro j t h1 h2; simp only [List.length_nil] at h2; omega
  | cons entry rest ih =>
    intro j t h1 h2
    simp only [List.length_cons] at h2
    by_cases hj7 : j < 7
    · by_cases h4 : 4 ≤ j
      · cases hv : stoul entry with
        | error e => exact ⟨e, by simp only [readEntries, hj7, if_true, ge_iff_le, h4, hv]⟩
        | ok v =>
          cases hs : setAt t i (usub (uadd (umul 3 k) j) 4) v with
          | error e =>
            exact ⟨e, by simp only [readEntries, hj7, if_true, ge_iff_le, h4, hv, hs]⟩
          | ok t2 =>
            obtain ⟨e, he⟩ := ih (j + 1) t2 (by omega) (by omega)
            exact ⟨e, by simp only [readEntries, hj7, if_true, ge_iff_le, h4, hv, hs, he]⟩
      · simp only [readEntries, hj7, if_true, ge_iff_le, h4, if_false]
        exact ih (j + 1) t (by omega) (by omega)
    · exact ⟨.assertFailed, by simp only [readEntries, hj7, if_false]⟩

theorem isDigit_bounds {c : Char} (h : c.isDigit = true) : 48 ≤ c.toNat ∧ c.toNat ≤ 57 := by
  simp only [Char.isDigit, Bool.and_eq_true, decide_eq_true_eq] at h
  exact ⟨h.1, h.2⟩

theorem isspace_of_isDigit {c : Char} (h : c.isDigit = true) : isspace c = false := by
  have hb := isDigit_bounds h
  have h1 : c ≠ ' ' := by rintro rfl; simp at hb
  have h2 : c ≠ '\t' := by rintro rfl; simp at hb
  have h3 : c ≠ '\n' := by rintro rfl; simp at hb
  have h4 : c ≠ '\r' := by rintro rfl; simp at hb
  have h5 : c.toNat ≠ 11 := by omega
  have h6 : c.toNat ≠ 12 := by omega
  simp [isspace, h1, h2, h3, h4, h5, h6]

theorem stoul_of_isUnsignedNumber {e : Str} (h : isUnsignedNumber e = true) :
    stoul e = .ok (decimal e) := by
  simp only [isUnsignedNumber, Bool.and_eq_true, Bool.not_eq_true', List.all_eq_true,
    decide_eq_true_eq] at h
  obtain ⟨⟨hne, hdig⟩, hlt⟩ := h
  cases e with
  | nil => simp at hne
  | cons c cs =>
    have hc : c.isDigit = true := hdig c (List.mem_cons_self _ _)
    have hb := isDigit_bounds hc
    have hsp : isspace c = false := isspace_of_isDigit hc
    have hm : c ≠ '-' := by rintro rfl; simp at hb
    have hp : c ≠ '+' := by rintro rfl; simp at hb
    have hd : (c :: cs).dropWhile isspace = c :: cs := by
      simp [List.dropWhile, hsp]
    have ht : (c :: cs).takeWhile Char.isDigit = c :: cs :=
      List.takeWhile_eq_self_iff.2 hdig
    have hnl : ¬ SIZE ≤ decimal (c :: cs) := by omega
    simp [stoul, hd, hm, hp, ht, hnl]

/-- Result of `readLines` when the rows do not run past `nloci`, no line has more than 7
fields and every field from position 4 on is accepted by `stoul`. -/
theorem readLines_ok (k nloci ncols : Nat) (hcol : 3 * k + 3 ≤ ncols) (hwide : ncols < SIZE) :
    ∀ (lines : List Str) (i : Nat) (t : SizeTable), i + lines.length ≤ nloci →
      (∀ line ∈ lines, (fields line).length ≤ 7 ∧
        ∀ q e, (fields line)[q]? = some e → 4 ≤ q → ∃ v, stoul e = .ok v) →
      Shape t nloci ncols →
      ∃ t2, readLines nloci k lines i t = .ok t2 ∧ Shape t2 nloci ncols ∧
        (∀ m line q e v, lines[m]? = some line → (fields line)[q]? = some e → 4 ≤ q →
          stoul e = .ok v → tableAt t2 (i + m) (3 * k + q - 4) = some v) ∧
        (∀ i2 j2, (i2 < i ∨ i + lines.length ≤ i2 ∨ j2 < 3 * k ∨ 3 * k + 3 ≤ j2) →
          tableAt t2 i2 j2 = tableAt t i2 j2) := by
  intro lines
  induction lines with
  | nil =>
    intro i t _ _ hs
    exact ⟨t, rfl, hs, fun m line q e v h => by simp at h, fun _ _ _ => rfl⟩
  | cons line rest ih =>
    intro i t hi hok hs
    simp only [List.length_cons] at hi
    have hin : i < nloci := by omega
    obtain ⟨h7, hnum⟩ := hok line (List.mem_cons_self _ _)
    obtain ⟨t1, ht1, hs1, hw1, hu1⟩ := readEntries_ok k i nloci ncols hin hcol hwide
      (fields line) 0 t (by omega) (fun m e he hm => hnum m e he (by omega)) hs
    obtain ⟨t2, ht2, hs2, hw2, hu2⟩ := ih (i + 1) t1 (by omega)
      (fun l hl => hok l (List.mem_cons_of_mem _ hl)) hs1
    refine ⟨t2, ?_, hs2, ?_, ?_⟩
    · simp only [readLines, hin, if_true, ht1, ht2]
    · intro m l q e v hl he hq hv
      cases m with
      | zero =>
        simp only [List.getElem?_cons_zero, Option.some.injEq] at hl
        subst hl
        have := hw1 q e v he (by omega) hv
        rw [Nat.zero_add] at this
        rw [Nat.add_zero, hu2 i (3 * k + q - 4) (Or.inl (by omega))]
        exact this
      | succ m =>
        have e1 : i + (m + 1) = i + 1 + m := by omega
        rw [e1]
        exact hw2 m l q e v (by simpa using hl) he hq hv
    · intro i2 j2 hout
      simp only [List.length_cons] at hout
      rw [hu2 i2 j2 (by omega)]
      exact hu1 i2 j2 (by omega)

/-- A line with more than 7 fields stops `readLines`. -/
theorem readLines_error_fields (nloci k : Nat) :
    ∀ (lines : List Str) (i : Nat) (t : SizeTable),
      (∃ line ∈ lines, 7 < (fields line).length) →
      ∃ e, readLines nloci k lines i t = .error e := by
  intro lines
  induction lines with
  | nil => intro i t h; obtain ⟨l, hl, _⟩ := h; simp at hl
  | cons line rest ih =>
    intro i t h
    by_cases hin : i < nloci
    · cases h1 : readEntries k i (fields line) 0 t with
      | error e => exact ⟨e, by simp only [readLines, hin, if_true, h1]⟩
      | ok t1 =>
        obtain ⟨l, hl, h7⟩ := h
        rcases List.mem_cons.1 hl with heq | hmem
        · subst heq
          obtain ⟨e, he⟩ := readEntries_error k i (fields l) 0 t (by omega) (by omega)
          rw [he] at h1
          cases h1
        · obtain ⟨e, he⟩ := ih (i + 1) t1 ⟨l, hmem, h7⟩
          exact ⟨e, by simp only [readLines, hin, if_true, h1, he]⟩
    · exact ⟨.assertFailed, by simp only [readLines, hin, if_false]⟩

/-- More data lines than rows stop `readLines`. -/
theorem readLines_error_count (nloci k : Nat) :
    ∀ (lines : List Str) (i : Nat) (t : SizeTable), nloci < i + lines.length →
      i ≤ nloci → ∃ e, readLines nloci k lines i t = .error e := by
  intro lines
  induction lines with
  | nil => intro i t h1 h2; simp only [List.length_nil] at h1; omega
  | cons line rest ih =>
    intro i t h1 h2
    simp only [List.length_cons] at h1
    by_cases hin : i < nloci
    · cases hr : readEntries k i (fields line) 0 t with
      | error e => exact ⟨e, by simp only [readLines, hin, if_true, hr]⟩
      | ok t1 =>
        obtain ⟨e, he⟩ := ih (i + 1) t1 (by omega) (by omega)
        exact ⟨e, by simp only [readLines, hin, if_true, hr, he]⟩
    · exact ⟨.assertFailed, by simp only [readLines, hin, if_false]⟩

/-- With one haplotype and a suffix, `readBedTable` is the load of the file
`<haplotype>.<suffix>`. -/
theorem readBedTable_single (files : Str → FileText) (fsuffix hap : Str) (t : SizeTable)
    (hsuffix : fsuffix ≠ ['-']) :
    readBedTable files fsuffix [hap] [] t = loadFile 0 (files (hap ++ '.' :: fsuffix)) t := by
  simp only [readBedTable, List.length_singleton, readBedFrom, bedFile, List.length_nil,
    ne_eq, not_true_eq_false, if_false, hsuffix, not_false_eq_true, if_true,
    List.getElem?_cons_zero]
  cases loadFile 0 (files (hap ++ '.' :: fsuffix)) t <;> rfl

/-! ## Claims on the boundary table loader -/

/-- C9 (boundary table placement): for a table of `nloci` rows and `3 * nhap` columns, a
haplotype `h < nhap` and a file made of a header line and at most `nloci` data lines, each
of exactly 7 fields whose fields 4, 5, 6 are unsigned numbers, loading the file succeeds,
row `i`, column `3h + c` holds the value of field `4 + c` of data line `i` (`c < 3`), and
every entry in a column of another haplotype or in a row past the last data line is the
one the table had; the header and fields 0-3 appear nowhere in the result. -/
theorem loadFile_places_fields (nloci nhap h : Nat) (t : SizeTable) (header : Str)
    (data : List Str) (hs : Shape t nloci (3 * nhap)) (hwide : 3 * nhap < SIZE)
    (hh : h < nhap) (hcount : data.length ≤ nloci)
    (hfields : ∀ line ∈ data, (fields line).length = 7 ∧
      ∀ q e, (fields line)[q]? = some e → 4 ≤ q → isUnsignedNumber e = true) :
    ∃ t2, loadFile h (some (header :: data)) t = .ok t2 ∧ Shape t2 nloci (3 * nhap) ∧
      (∀ i line, data[i]? = some line → ∀ c, c < 3 →
        ∃ e, (fields line)[4 + c]? = some e ∧ tableAt t2 i (3 * h + c) = some (decimal e)) ∧
      (∀ i j, (data.length ≤ i ∨ j < 3 * h ∨ 3 * h + 3 ≤ j) →
        tableAt t2 i j = tableAt t i j) := by
  obtain ⟨t2, ht2, hs2, hw2, hu2⟩ := readLines_ok h nloci (3 * nhap) (by omega) hwide data 0 t
    (by omega)
    (fun line hl => ⟨by rw [(hfields line hl).1], fun q e he hq =>
      ⟨decimal e, stoul_of_isUnsignedNumber ((hfields line hl).2 q e he hq)⟩⟩) hs
  refine ⟨t2, ?_, hs2, ?_, ?_⟩
  · simp only [loadFile, List.drop_succ_cons, List.drop_zero, hs.1, ht2]
  · intro i line hl c hc
    have hmem : line ∈ data := List.getElem?_mem hl
    obtain ⟨h7, hnum⟩ := hfields line hmem
    have hlt : 4 + c < (fields line).length := by omega
    refine ⟨(fields line)[4 + c], List.getElem?_eq_getElem hlt, ?_⟩
    have := hw2 i line (4 + c) _ _ hl (List.getElem?_eq_getElem hlt) (by omega)
      (stoul_of_isUnsignedNumber (hnum (4 + c) _ (List.getElem?_eq_getElem hlt) (by omega)))
    have e1 : 3 * h + (4 + c) - 4 = 3 * h + c := by omega
    rw [Nat.zero_add, e1] at this
    exact this
  · intro i j hout
    exact hu2 i j (by omega)

/-- Witness of C9: the second haplotype's file of two loci is loaded into a table of
2 loci and 2 haplotypes; columns 3-5 receive fields 4-6, columns 0-2 keep their values. -/
theorem loadFile_places_fields_witness :
    ∃ t2, loadFile 1 (some sampleBed) sampleTable = .ok t2 ∧
      t2 = [[11, 12, 13, 1000, 55, 900], [21, 22, 23, 7, 8, 9]] ∧
      (∀ i j, (2 ≤ i ∨ j < 3 * 1 ∨ 3 * 1 + 3 ≤ j) → tableAt t2 i j = tableAt sampleTable i j) := by
  have hsample : sampleBed = "chr start end id lflank trlen rflank".toList ::
      ["chr1 100 200 a 1000 55 900".toList, "chr2\t300\t400\tb\t7\t8\t9".toList] := rfl
  obtain ⟨t2, h1, -, -, h4⟩ := loadFile_places_fields 2 2 1 sampleTable
    "chr start end id lflank trlen rflank".toList
    ["chr1 100 200 a 1000 55 900".toList, "chr2\t300\t400\tb\t7\t8\t9".toList]
    ⟨by decide, by decide⟩ (by unfold SIZE; norm_num) (by decide) (by decide)
    (by
      intro line hl
      simp only [List.mem_cons, List.mem_singleton, List.not_mem_nil, or_false] at hl
      rcases hl with hl | hl
      · subst hl
        have hf : fields "chr1 100 200 a 1000 55 900".toList =
            ["chr1".toList, "100".toList, "200".toList, "a".toList, "1000".toList,
              "55".toList, "900".toList] := by decide
        rw [hf]
        refine ⟨rfl, ?_⟩
        intro q e he hq
        have hq7 : q < 7 := by
          by_contra hc
          rw [List.getElem?_eq_none (by simp only [List.length_cons, List.length_nil]; omega)] at he
          cases he
        interval_cases q <;>
          simp only [List.getElem?_cons_succ, List.getElem?_cons_zero, Option.some.injEq] at he <;>
          subst he <;> decide
      · subst hl
        have hf : fields "chr2\t300\t400\tb\t7\t8\t9".toList =
            ["chr2".toList, "300".toList, "400".toList, "b".toList, "7".toList,
              "8".toList, "9".toList] := by decide
        rw [hf]
        refine ⟨rfl, ?_⟩
        intro q e he hq
        have hq7 : q < 7 := by
          by_contra hc
          rw [List.getElem?_eq_none (by simp only [List.length_cons, List.length_nil]; omega)] at he
          cases he
        interval_cases q <;>
          simp only [List.getElem?_cons_succ, List.getElem?_cons_zero, Option.some.injEq] at he <;>
          subst he <;> decide)
  rw [← hsample] at h1
  refine ⟨t2, h1, ?_, h4⟩
  have h5 : loadFile 1 (some sampleBed) sampleTable =
      .ok [[11, 12, 13, 1000, 55, 900], [21, 22, 23, 7, 8, 9]] := by decide
  rw [h1] at h5
  exact Except.ok.inj h5

/-- A field from position 4 on which `stoul` rejects stops `readEntries`. -/
theorem readEntries_error_stoul (k i : Nat) :
    ∀ (es : List Str) (j : Nat) (t : SizeTable),
      (∃ m e x, es[m]? = some e ∧ 4 ≤ j + m ∧ stoul e = .error x) →
      ∃ err, readEntries k i es j t = .error err := by
  intro es
  induction es with
  | nil => intro j t h; obtain ⟨m, e, x, he, _⟩ := h; simp at he
  | cons entry rest ih =>
    intro j t h
    obtain ⟨m, e, x, he, hm, hx⟩ := h
    by_cases hj7 : j < 7
    · by_cases h4 : 4 ≤ j
      · cases hv : stoul entry with
        | error err =>
          exact ⟨err, by simp only [readEntries, hj7, if_true, ge_iff_le, h4, hv]⟩
        | ok v =>
          cases hs : setAt t i (usub (uadd (umul 3 k) j) 4) v with
          | error err =>
            exact ⟨err, by simp only [readEntries, hj7, if_true, ge_iff_le, h4, hv, hs]⟩
          | ok t2 =>
            cases m with
            | zero =>
              simp only [List.getElem?_cons_zero, Option.some.injEq] at he
              subst he
              rw [hx] at hv
              cases hv
            | succ m =>
              obtain ⟨err, herr⟩ := ih (j + 1) t2
                ⟨m, e, x, by simpa using he, by omega, hx⟩
              exact ⟨err, by
                simp only [readEntries, hj7, if_true, ge_iff_le, h4, hv, hs, herr]⟩
      · cases m with
        | zero => omega
        | succ m =>
          obtain ⟨err, herr⟩ := ih (j + 1) t ⟨m, e, x, by simpa using he, by omega, hx⟩
          exact ⟨err, by simp only [readEntries, hj7, if_true, ge_iff_le, h4, if_false, herr]⟩
    · exact ⟨.assertFailed, by simp only [readEntries, hj7, if_false]⟩

/-- A line with a rejected field from position 4 on stops `readLines`. -/
theorem readLines_error_stoul (nloci k : Nat) :
    ∀ (lines : List Str) (i : Nat) (t : SizeTable),
      (∃ line ∈ lines, ∃ q e x, (fields line)[q]? = some e ∧ 4 ≤ q ∧ stoul e = .error x) →
      ∃ err, readLines nloci k lines i t = .error err := by
  intro lines
  induction lines with
  | nil => intro i t h; obtain ⟨l, hl, _⟩ := h; simp at hl
  | cons line rest ih =>
    intro i t h
    by_cases hin : i < nloci
    · cases h1 : readEntries k i (fields line) 0 t with
      | error e => exact ⟨e, by simp only [readLines, hin, if_true, h1]⟩
      | ok t1 =>
        obtain ⟨l, hl, q, e, x, he, hq, hx⟩ := h
        rcases List.mem_cons.1 hl with heq | hmem
        · subst heq
          obtain ⟨err, herr⟩ := readEntries_error_stoul k i (fields l) 0 t
            ⟨q, e, x, he, by omega, hx⟩
          rw [herr] at h1
          cases h1
        · obtain ⟨err, herr⟩ := ih (i + 1) t1 ⟨l, hmem, q, e, x, he, hq, hx⟩
          exact ⟨err, by simp only [readLines, hin, if_true, h1, herr]⟩
    · exact ⟨.assertFailed, by simp only [readLines, hin, if_false]⟩

/-- C10, counterexample: a data line of 3 fields does not make the load fail (the table is
returned as it was), and a data line of exactly 7 fields makes it fail when field 4 is not
a number. -/
theorem loadFile_field_count_counterexample :
    (fields "a b c".toList).length = 3 ∧
    loadFile 0 (some ["header".toList, "a b c".toList]) [[0, 0, 0]] = .ok [[0, 0, 0]] ∧
    (fields "a b c d x 2 3".toList).length = 7 ∧
    loadFile 0 (some ["header".toList, "a b c d x 2 3".toList]) [[0, 0, 0]] =
      .error .uncaught := by
  refine ⟨by decide, by decide, by decide, by decide⟩

/-- C10, amended: for a table of `nloci` rows and `3 * nhap` columns and a haplotype
`h < nhap`, loading a file fails when the file cannot be opened, when a data line has more
than 7 fields, when a field at position 4 or later is rejected by `stoul`, and when there
are more data lines than `nloci`; it succeeds when there are at most `nloci` data lines,
each of at most 7 fields (fewer than 7 are accepted) whose fields from position 4 on are
accepted by `stoul`. -/
theorem loadFile_shape_errors (nloci nhap h : Nat) (t : SizeTable) (header : Str)
    (data : List Str) (hs : Shape t nloci (3 * nhap)) (hwide : 3 * nhap < SIZE)
    (hh : h < nhap) :
    (∃ e, loadFile h none t = .error e) ∧
    ((∃ line ∈ data, 7 < (fields line).length) →
      ∃ e, loadFile h (some (header :: data)) t = .error e) ∧
    ((∃ line ∈ data, ∃ q e x, (fields line)[q]? = some e ∧ 4 ≤ q ∧ stoul e = .error x) →
      ∃ e, loadFile h (some (header :: data)) t = .error e) ∧
    (nloci < data.length → ∃ e, loadFile h (some (header :: data)) t = .error e) ∧
    (data.length ≤ nloci →
      (∀ line ∈ data, (fields line).length ≤ 7 ∧
        ∀ q e, (fields line)[q]? = some e → 4 ≤ q → ∃ v, stoul e = .ok v) →
      ∃ t2, loadFile h (some (header :: data)) t = .ok t2) := by
  refine ⟨⟨.assertFailed, rfl⟩, ?_, ?_, ?_, ?_⟩
  · intro hbad
    simp only [loadFile, List.drop_succ_cons, List.drop_zero]
    exact readLines_error_fields _ h data 0 t hbad
  · intro hbad
    simp only [loadFile, List.drop_succ_cons, List.drop_zero]
    exact readLines_error_stoul _ h data 0 t hbad
  · intro hmany
    simp only [loadFile, List.drop_succ_cons, List.drop_zero]
    exact readLines_error_count _ h data 0 t (by rw [hs.1]; omega) (by omega)
  · intro hcount hok
    obtain ⟨t2, ht2, -⟩ := readLines_ok h nloci (3 * nhap) (by omega) hwide data 0 t
      (by omega) hok hs
    exact ⟨t2, by simp only [loadFile, List.drop_succ_cons, List.drop_zero, hs.1, ht2]⟩

/-- Witness of C10 (amended): on a table of one locus and one haplotype, a data line of
8 fields and a second data line both make the load fail. -/
theorem loadFile_shape_errors_witness :
    (∃ e, loadFile 0 (some ["header".toList, "a b c d 1 2 3 4".toList]) [[0, 0, 0]]
      = .error e) ∧
    (∃ e, loadFile 0 (some ["header".toList, "a b c d 1 2 3".toList,
      "a b c d 1 2 3".toList]) [[0, 0, 0]] = .error e) :=
  ⟨(loadFile_shape_errors 1 1 0 [[0, 0, 0]] "header".toList ["a b c d 1 2 3 4".toList]
      ⟨by decide, by decide⟩ (by unfold SIZE; norm_num) (by decide)).2.1
      ⟨"a b c d 1 2 3 4".toList, by simp, by decide⟩,
    (loadFile_shape_errors 1 1 0 [[0, 0, 0]] "header".toList
      ["a b c d 1 2 3".toList, "a b c d 1 2 3".toList]
      ⟨by decide, by decide⟩ (by unfold SIZE; norm_num) (by decide)).2.2.2.1 (by decide)⟩

/-! ## Lemmas on the haplotype selection -/

theorem findPos_lt {haps : List Str} {s : Str} (h : s ∈ haps) : findPos haps s < haps.length := by
  induction haps with
  | nil => simp at h
  | cons a rest ih =>
    simp only [findPos, List.length_cons]
    by_cases ha : a = s
    · simp only [ha, if_true]; omega
    · simp only [ha, if_false]
      have : s ∈ rest := by
        rcases List.mem_cons.1 h with h | h
        · exact absurd h.symm ha
        · exact h
      have := ih this
      omega

theorem getElem_findPos {haps : List Str} {s : Str} (h : s ∈ haps) :
    haps[findPos haps s]? = some s := by
  induction haps with
  | nil => simp at h
  | cons a rest ih =>
    simp only [findPos]
    by_cases ha : a = s
    · simp only [ha, if_true, List.getElem?_cons_zero]
    · simp only [ha, if_false, List.getElem?_cons_succ]
      apply ih
      rcases List.mem_cons.1 h with h | h
      · exact absurd h.symm ha
      · exact h

theorem findPos_of_nodup {haps : List Str} (hnodup : haps.Nodup) :
    ∀ {j : Nat} {s : Str}, haps[j]? = some s → findPos haps s = j := by
  induction haps with
  | nil => intro j s h; simp at h
  | cons a rest ih =>
    intro j s h
    have hn := List.nodup_cons.1 hnodup
    cases j with
    | zero =>
      simp only [List.getElem?_cons_zero, Option.some.injEq] at h
      simp only [findPos, h, if_true]
    | succ j =>
      simp only [List.getElem?_cons_succ] at h
      have hmem : s ∈ rest := List.getElem?_mem h
      have ha : ¬ a = s := by
        rintro rfl
        exact hn.1 hmem
      simp only [findPos, ha, if_false, ih hn.2 h]

/-- When every name is in the catalog, `flagNames` sets the flag at the position of each
name and leaves the others. -/
theorem flagNames_ok (haps : List Str) (value : Bool) :
    ∀ (names : List Str) (clist : List Bool), clist.length = haps.length →
      (∀ s ∈ names, s ∈ haps) →
      ∃ cl, flagNames haps value names clist = .ok cl ∧ cl.length = haps.length ∧
        ∀ j, cl[j]? = if (∃ s ∈ names, findPos haps s = j) then some value else clist[j]? := by
  intro names
  induction names with
  | nil =>
    intro clist hlen _
    exact ⟨clist, rfl, hlen, fun j => by simp⟩
  | cons s rest ih =>
    intro clist hlen hmem
    have hs : s ∈ haps := hmem s (List.mem_cons_self _ _)
    have hidx : findPos haps s < clist.length := by
      rw [hlen]; exact findPos_lt hs
    obtain ⟨cl, hc, hcl, hcj⟩ := ih (clist.set (findPos haps s) value)
      (by rw [List.length_set]; exact hlen) (fun x hx => hmem x (List.mem_cons_of_mem _ hx))
    refine ⟨cl, ?_, hcl, ?_⟩
    · simp only [flagNames, hs, if_true, setFlag, hidx, hc]
    · intro j
      rw [hcj j]
      by_cases h1 : ∃ x ∈ rest, findPos haps x = j
      · have h2 : ∃ x ∈ s :: rest, findPos haps x = j := by
          obtain ⟨x, hx, hxj⟩ := h1
          exact ⟨x, List.mem_cons_of_mem _ hx, hxj⟩
        rw [if_pos h1, if_pos h2]
      · rw [if_neg h1, List.getElem?_set]
        by_cases h3 : findPos haps s = j
        · have h2 : ∃ x ∈ s :: rest, findPos haps x = j := ⟨s, List.mem_cons_self _ _, h3⟩
          rw [if_pos h2, if_pos h3, if_pos hidx]
        · have h2 : ¬ ∃ x ∈ s :: rest, findPos haps x = j := by
            rintro ⟨x, hx, hxj⟩
            rcases List.mem_cons.1 hx with hx | hx
            · subst hx; exact h3 hxj
            · exact h1 ⟨x, hx, hxj⟩
          rw [if_neg h2, if_neg h3]

/-- The first name that is not in the catalog, if there is one, is the one `flagNames`
reports. -/
theorem flagNames_missing (haps : List Str) (value : Bool) :
    ∀ (names : List Str) (clist : List Bool) (s : Str), clist.length = haps.length →
      names.find? (fun x => decide (x ∉ haps)) = some s →
      flagNames haps value names clist = .error (.missingHaplotype s) := by
  intro names
  induction names with
  | nil => intro clist s _ h; simp at h
  | cons x rest ih =>
    intro clist s hlen h
    by_cases hx : x ∈ haps
    · have hidx : findPos haps x < clist.length := by
        rw [hlen]; exact findPos_lt hx
      have h2 : rest.find? (fun x => decide (x ∉ haps)) = some s := by
        simpa [List.find?_cons, hx] using h
      have := ih (clist.set (findPos haps x) value) s
        (by rw [List.length_set]; exact hlen) h2
      simp only [flagNames, hx, if_true, setFlag, hidx, this]
    · have h2 : x = s := by
        simpa [List.find?_cons, hx] using h
      subst h2
      simp only [flagNames, hx, if_false]

theorem find_missing_eq_none {haps names : List Str} :
    names.find? (fun x => decide (x ∉ haps)) = none ↔ ∀ s ∈ names, s ∈ haps := by
  rw [List.find?_eq_none]
  constructor
  · intro h s hs
    have := h s hs
    simpa using this
  · intro h s hs
    simpa using h s hs

theorem lastChar_fault {s : Str} {e : Fault} (h : lastChar s = .error e) : e = .uncaught := by
  unfold lastChar substr at h
  split at h
  · cases h; rfl
  · cases h

theorem assertEither_fault {la lb : Except Fault Str} {d : Str} {e : Fault}
    (hla : ∀ x, la = .error x → x = .uncaught) (hlb : ∀ x, lb = .error x → x = .uncaught)
    (h : assertEither la lb d = .error e) : e = .uncaught ∨ e = .assertFailed := by
  cases la with
  | error x =>
    simp only [assertEither] at h
    cases h
    exact Or.inl (hla _ rfl)
  | ok x =>
    by_cases h1 : x = d
    · simp only [assertEither, h1, if_true] at h
      cases h
    · cases lb with
      | error y =>
        simp only [assertEither, h1, if_false] at h
        cases h
        exact Or.inl (hlb _ rfl)
      | ok y =>
        by_cases h2 : y = d
        · simp only [assertEither, h1, h2, if_true, if_false] at h
          cases h
        · simp only [assertEither, h1, h2, if_false] at h
          cases h
          exact Or.inr rfl

theorem pairAsserts_fault {pa pb la lb : Except Fault Str} {e : Fault}
    (hpa : ∀ x, pa = .error x → x = .uncaught) (hpb : ∀ x, pb = .error x → x = .uncaught)
    (hla : ∀ x, la = .error x → x = .uncaught) (hlb : ∀ x, lb = .error x → x = .uncaught)
    (h : pairAsserts pa pb la lb = .error e) : e = .uncaught ∨ e = .assertFailed := by
  cases pa with
  | error x =>
    simp only [pairAsserts] at h
    cases h
    exact Or.inl (hpa _ rfl)
  | ok x =>
    cases pb with
    | error y =>
      simp only [pairAsserts] at h
      cases h
      exact Or.inl (hpb _ rfl)
    | ok y =>
      by_cases hxy : x = y
      · simp only [pairAsserts, hxy, if_true] at h
        cases h0 : assertEither la lb ['0'] with
        | error z =>
          simp only [h0] at h
          cases h
          exact assertEither_fault hla hlb h0
        | ok u =>
          simp only [h0] at h
          cases h1 : assertEither la lb ['1'] with
          | error z =>
            simp only [h1] at h
            cases h
            exact assertEither_fault hla hlb h1
          | ok u2 =>
            simp only [h1] at h
            cases h
      · simp only [pairAsserts, hxy, if_false] at h
        cases h
        exact Or.inr rfl

theorem substr_fault {s : Str} {pos n : Nat} {e : Fault} (h : substr s pos n = .error e) :
    e = .uncaught := by
  unfold substr at h
  split at h
  · cases h; rfl
  · cases h

theorem pairCheck_fault {tmp : List Str} {e : Fault} (h : pairCheck tmp = .error e) :
    e = .uncaught ∨ e = .assertFailed := by
  unfold pairCheck at h
  split at h
  · cases h
  · exact pairAsserts_fault (fun _ hx => substr_fault hx) (fun _ hx => substr_fault hx)
      (fun _ hx => lastChar_fault hx) (fun _ hx => lastChar_fault hx) h
  · cases h

/-- The flags `selectNames` leaves when it succeeds on a catalog without repetition: entry
`j` is the opposite of `isEx` exactly when the name at `j` is among the names given. -/
theorem selectNames_flags {haps names : List Str} {isEx : Bool} {sel : Selection}
    (hnodup : haps.Nodup) (h : selectNames haps isEx names = .ok sel) :
    sel.haps = haps ∧
      sel.clist = haps.map (fun name => if name ∈ names then !isEx else isEx) ∧
      names ≠ [] ∧ (∀ s ∈ names, s ∈ haps) := by
  unfold selectNames at h
  by_cases hne : names.length ≠ 0
  · rw [if_pos hne] at h
    cases hfind : names.find? (fun x => decide (x ∉ haps)) with
    | some s =>
      rw [flagNames_missing haps (!isEx) names _ s (by simp) hfind] at h
      cases h
    | none =>
      have hall := find_missing_eq_none.1 hfind
      obtain ⟨cl, hc, hcl, hcj⟩ := flagNames_ok haps (!isEx) names
        (List.replicate haps.length isEx) (by simp) hall
      rw [hc] at h
      cases hp : pairCheck names with
      | error e => rw [hp] at h; cases h
      | ok w =>
        rw [hp] at h
        simp only [Except.ok.injEq] at h
        subst h
        refine ⟨rfl, ?_, fun h0 => hne (by rw [h0]; rfl), hall⟩
        apply List.ext_getElem?
        intro j
        show cl[j]? = _
        rw [hcj j, List.getElem?_map, List.getElem?_replicate]
        by_cases hj : j < haps.length
        · have hget : haps[j]? = some haps[j] := List.getElem?_eq_getElem hj
          rw [hget, if_pos hj, Option.map_some']
          by_cases hm : haps[j] ∈ names
          · have : ∃ s ∈ names, findPos haps s = j :=
              ⟨haps[j], hm, findPos_of_nodup hnodup hget⟩
            rw [if_pos this, if_pos hm]
          · have : ¬ ∃ s ∈ names, findPos haps s = j := by
              rintro ⟨s, hs, hsj⟩
              apply hm
              have h1 := getElem_findPos (hall s hs)
              rw [hsj, hget] at h1
              rw [Option.some.inj h1]
              exact hs
            rw [if_neg this, if_neg hm]
        · have : ¬ ∃ s ∈ names, findPos haps s = j := by
            rintro ⟨s, hs, hsj⟩
            have hlt : findPos haps s < haps.length := findPos_lt (hall s hs)
            omega
          rw [List.getElem?_eq_none (by omega), if_neg this, if_neg hj, Option.map_none']
  · rw [if_neg hne] at h
    cases h

theorem counted_map (haps : List Str) (f : Str → Bool) (cf : List Str) (w : Bool) :
    counted { haps := haps, clist := haps.map f, configFiles := cf, warned := w } =
      haps.filter f := by
  simp only [counted]
  induction haps with
  | nil => rfl
  | cons a rest ih =>
    simp only [List.map_cons, List.zip_cons_cons, List.filter_cons]
    by_cases ha : f a = true
    · rw [if_pos ha, if_pos ha, List.map_cons, ih]
    · rw [if_neg ha, if_neg ha, ih]

/-- The branch for `-exclude` and `-list` stops with the missing-haplotype message for `s`
exactly when `s` is the first name given that is not in the catalog. -/
theorem selectNames_missing_iff (haps names : List Str) (isEx : Bool) (s : Str) :
    selectNames haps isEx names = .error (.missingHaplotype s) ↔
      names.find? (fun x => decide (x ∉ haps)) = some s := by
  unfold selectNames
  by_cases hne : names.length ≠ 0
  · rw [if_pos hne]
    cases hfind : names.find? (fun x => decide (x ∉ haps)) with
    | some s2 =>
      rw [flagNames_missing haps (!isEx) names _ s2 (by simp) hfind]
      constructor
      · intro h
        simp only [Except.error.injEq, Fault.missingHaplotype.injEq] at h
        rw [h]
      · intro h
        simp only [Option.some.injEq] at h
        rw [h]
    | none =>
      obtain ⟨cl, hc, -, -⟩ := flagNames_ok haps (!isEx) names
        (List.replicate haps.length isEx) (by simp) (find_missing_eq_none.1 hfind)
      rw [hc]
      constructor
      · intro h
        cases hp : pairCheck names with
        | error e =>
          rw [hp] at h
          simp only [Except.error.injEq] at h
          rcases pairCheck_fault hp with h1 | h1 <;> rw [h1] at h <;> cases h
        | ok w => rw [hp] at h; cases h
      · intro h; cases h
  · rw [if_neg hne]
    have h0 : names = [] := by
      cases names with
      | nil => rfl
      | cons a l => simp at hne
    subst h0
    constructor
    · intro h; cases h
    · intro h; simp at h

/-- C6 (unknown name is rejected): under `-exclude` and `-list` the selection stops with the
missing-haplotype message exactly when some name given is not in the catalog, and the name
in the message is the first such name in the order given; the run then ends with a fault,
so no sequence file is scanned and no table reaches `writeKmers`, and the fault is that
message as soon as the asserts of lines 153 and 167 pass.  On the catalog `A, B, C`,
`-list Z` stops naming `Z`. -/
theorem resolve_unknown_name_rejected (catalog cArgs names : List Str) (fsGiven : Bool) :
    (∀ s, resolve catalog cArgs fsGiven (.exclude names) = .error (.missingHaplotype s) ↔
      names.find? (fun x => decide (x ∉ catalog)) = some s) ∧
    (∀ s, resolve catalog cArgs fsGiven (.list names) = .error (.missingHaplotype s) ↔
      names.find? (fun x => decide (x ∉ catalog)) = some s) ∧
    ((∃ s, resolve catalog cArgs fsGiven (.exclude names) = .error (.missingHaplotype s)) ↔
      ∃ x ∈ names, x ∉ catalog) ∧
    ((∃ s, resolve catalog cArgs fsGiven (.list names) = .error (.missingHaplotype s)) ↔
      ∃ x ∈ names, x ∉ catalog) ∧
    (∀ (κ : Type) [DecidableEq κ] (X : Extractor κ) (w : World) (cfg : Config) (s : Str),
      resolve hapDB cfg.cArgs cfg.fsGiven cfg.directive = .error (.missingHaplotype s) →
      (∃ e, run X w cfg = .error e) ∧
      (cfg.NTRsize ≤ cfg.fs → w.writable (cfg.outfname ++ ".tr.kmers".toList) = true →
        run X w cfg = .error (.missingHaplotype s))) ∧
    resolve ["A".toList, "B".toList, "C".toList] ["-".toList, "-list".toList, "Z".toList]
      true (.list ["Z".toList]) = .error (.missingHaplotype "Z".toList) := by
  have hex : ∀ isEx, ((∃ s, selectNames catalog isEx names = .error (.missingHaplotype s)) ↔
      ∃ x ∈ names, x ∉ catalog) := by
    intro isEx
    constructor
    · rintro ⟨s, hs⟩
      have := (selectNames_missing_iff catalog names isEx s).1 hs
      have hmem := List.mem_of_find?_eq_some this
      have hp := List.find?_some this
      exact ⟨s, hmem, by simpa using hp⟩
    · rintro ⟨x, hx, hxc⟩
      cases hfind : names.find? (fun x => decide (x ∉ catalog)) with
      | none => exact absurd (find_missing_eq_none.1 hfind x hx) hxc
      | some s => exact ⟨s, (selectNames_missing_iff catalog names isEx s).2 hfind⟩
  refine ⟨fun s => selectNames_missing_iff catalog names true s,
    fun s => selectNames_missing_iff catalog names false s, hex true, hex false, ?_, by decide⟩
  intro κ _ X w cfg s hres
  constructor
  · unfold run
    by_cases h1 : cfg.fs ≥ cfg.NTRsize
    · rw [if_pos h1]
      by_cases h2 : w.writable (cfg.outfname ++ ".tr.kmers".toList) = true
      · rw [if_pos h2, hres]
        exact ⟨_, rfl⟩
      · rw [if_neg h2]
        exact ⟨_, rfl⟩
    · rw [if_neg h1]
      exact ⟨_, rfl⟩
  · intro h1 h2
    unfold run
    rw [if_pos h1, if_pos h2, hres]

/-! ## The check on two names -/

theorem lastChar_nil : lastChar [] = .error .uncaught := by decide

theorem lastChar_concat (ys : Str) (c : Char) (h : (ys ++ [c]).length < SIZE) :
    lastChar (ys ++ [c]) = .ok [c] := by
  have hlen : (ys ++ [c]).length = ys.length + 1 := by simp
  have hu : usub (ys ++ [c]).length 1 = ys.length := by
    rw [usub_eq_sub h (by omega), hlen]; rfl
  unfold lastChar substr
  rw [hu, if_neg (by omega)]
  simp

theorem stem_nil : substr [] 0 (usub ([] : Str).length 1) = .ok [] := by
  simp [substr]

theorem stem_concat (ys : Str) (c : Char) (h : (ys ++ [c]).length < SIZE) :
    substr (ys ++ [c]) 0 (usub (ys ++ [c]).length 1) = .ok ys := by
  have hlen : (ys ++ [c]).length = ys.length + 1 := by simp
  have hu : usub (ys ++ [c]).length 1 = ys.length := by
    rw [usub_eq_sub h (by omega), hlen]; rfl
  unfold substr
  rw [hu, if_neg (by omega)]
  simp

theorem assertEither_ok_iff (ca cb d : Char) :
    assertEither (.ok [ca]) (.ok [cb]) [d] = .ok () ↔ ca = d ∨ cb = d := by
  by_cases h1 : ca = d
  · simp [assertEither, h1]
  · by_cases h2 : cb = d
    · simp [assertEither, h1, h2]
    · simp [assertEither, h1, h2]

theorem assertEither_cases (la lb : Except Fault Str) (d : Str) :
    assertEither la lb d = .ok () ∨ ∃ e, assertEither la lb d = .error e := by
  cases h : assertEither la lb d with
  | error e => exact Or.inr ⟨e, rfl⟩
  | ok u => exact Or.inl rfl

theorem pairAsserts_ok_iff (x y : Str) (la lb : Except Fault Str) (w : Bool) :
    pairAsserts (.ok x) (.ok y) la lb = .ok w ↔
      x = y ∧ assertEither la lb ['0'] = .ok () ∧ assertEither la lb ['1'] = .ok () ∧
        w = false := by
  by_cases hxy : x = y
  · rcases assertEither_cases la lb ['0'] with h0 | ⟨e0, h0⟩
    · rcases assertEither_cases la lb ['1'] with h1 | ⟨e1, h1⟩
      · simp only [pairAsserts, hxy, if_true, h0, h1, Except.ok.injEq, true_and]
        exact ⟨fun h => h.symm, fun h => h.symm⟩
      · simp [pairAsserts, hxy, h0, h1]
    · simp [pairAsserts, hxy, h0]
  · simp [pairAsserts, hxy]

theorem pairAsserts_error_left (e : Fault) (pb la lb : Except Fault Str) (w : Bool) :
    pairAsserts (.error e) pb la lb ≠ .ok w := by
  cases pb <;> simp [pairAsserts]

theorem assertEither_error_left (e : Fault) (lb : Except Fault Str) (d : Str) :
    assertEither (.error e) lb d ≠ .ok () := by
  simp [assertEither]

/-- The two names pass the asserts of lines 233-235 exactly when they are the two phased
copies of one individual. -/
theorem pairCheck_two_iff (a b : Str) (ha : a.length < SIZE) (hb : b.length < SIZE) (w : Bool) :
    pairCheck [a, b] = .ok w ↔ PhasedPair a b ∧ w = false := by
  have hdef : pairCheck [a, b] = pairAsserts (substr a 0 (usub a.length 1))
      (substr b 0 (usub b.length 1)) (lastChar a) (lastChar b) := rfl
  rw [hdef]
  rcases List.eq_nil_or_concat a with rfl | ⟨ya, ca, rfl⟩
  · rw [stem_nil, lastChar_nil]
    constructor
    · intro h
      exfalso
      cases hpb : substr b 0 (usub b.length 1) with
      | error e => rw [hpb] at h; simp [pairAsserts] at h
      | ok y =>
        rw [hpb] at h
        have := (pairAsserts_ok_iff [] y _ _ w).1 h
        exact assertEither_error_left _ _ _ this.2.1
    · rintro ⟨⟨stem, h | h⟩, -⟩
      · exact absurd h.1 (by simp)
      · exact absurd h.1 (by simp)
  · rw [List.concat_eq_append] at ha ⊢
    rw [stem_concat ya ca ha, lastChar_concat ya ca ha]
    rcases List.eq_nil_or_concat b with rfl | ⟨yb, cb, rfl⟩
    · rw [stem_nil, lastChar_nil]
      constructor
      · intro h
        exfalso
        obtain ⟨-, h0, h1, -⟩ := (pairAsserts_ok_iff ya [] _ _ w).1 h
        by_cases c0 : ca = '0'
        · have c1 : ca ≠ '1' := by rw [c0]; decide
          simp [assertEither, c1] at h1
        · simp [assertEither, c0] at h0
      · rintro ⟨⟨stem, h | h⟩, -⟩
        · exact absurd h.2 (by simp)
        · exact absurd h.2 (by simp)
    · rw [List.concat_eq_append] at hb ⊢
      rw [stem_concat yb cb hb, lastChar_concat yb cb hb, pairAsserts_ok_iff,
        assertEither_ok_iff, assertEither_ok_iff]
      constructor
      · rintro ⟨hxy, h0, h1, hw⟩
        subst hxy
        refine ⟨⟨ya, ?_⟩, hw⟩
        rcases h0 with h0 | h0
        · rcases h1 with h1 | h1
          · rw [h0] at h1; exact absurd h1 (by decide)
          · exact Or.inl ⟨by rw [h0], by rw [h1]⟩
        · rcases h1 with h1 | h1
          · exact Or.inr ⟨by rw [h1], by rw [h0]⟩
          · rw [h0] at h1; exact absurd h1 (by decide)
      · rintro ⟨⟨stem, h | h⟩, hw⟩
        · obtain ⟨e1, e2⟩ := List.append_inj' h.1 rfl
          obtain ⟨e3, e4⟩ := List.append_inj' h.2 rfl
          simp only [List.cons.injEq, and_true] at e2 e4
          exact ⟨by rw [e1, e3], Or.inl e2, Or.inr e4, hw⟩
        · obtain ⟨e1, e2⟩ := List.append_inj' h.1 rfl
          obtain ⟨e3, e4⟩ := List.append_inj' h.2 rfl
          simp only [List.cons.injEq, and_true] at e2 e4
          exact ⟨by rw [e1, e3], Or.inr e4, Or.inl e2, hw⟩

theorem pairCheck_many (names : List Str) (h3 : 3 ≤ names.length) :
    pairCheck names = .ok true := by
  cases names with
  | nil => simp at h3
  | cons x l1 =>
    cases l1 with
    | nil => simp at h3
    | cons y l2 =>
      cases l2 with
      | nil => simp at h3
      | cons z l3 => rfl

/-- With every name in the catalog, the branch for `-exclude` and `-list` ends as the
check on the names ends. -/
theorem selectNames_of_known (haps names : List Str) (isEx : Bool) (hne : names ≠ [])
    (hall : ∀ s ∈ names, s ∈ haps) :
    ∃ cl, selectNames haps isEx names =
      match pairCheck names with
      | .error e => .error e
      | .ok w => .ok { haps := haps, clist := cl, configFiles := [], warned := w } := by
  obtain ⟨cl, hc, -, -⟩ := flagNames_ok haps (!isEx) names
    (List.replicate haps.length isEx) (by simp) hall
  refine ⟨cl, ?_⟩
  have hlen : names.length ≠ 0 := fun h => hne (List.length_eq_zero.1 h)
  unfold selectNames
  rw [if_pos hlen, hc]

/-! ## Claims on the haplotype selection -/

/-- C5 (include/exclude flags): on a catalog of distinct names, whenever the selection
accepts a name list, the haplotype list is the catalog and the flags have its length; under
`-exclude` the flag of entry `j` is true iff `catalog[j]` is not among the names, under
`-list` iff it is among them, so that the counted haplotypes are the catalog entries outside
(resp. inside) the name list; `-all` gives all-true flags and `-none` all-false flags. -/
theorem resolve_include_exclude_flags (catalog names cArgs : List Str) (fsGiven : Bool)
    (hnodup : catalog.Nodup) :
    (∀ sel : Selection, resolve catalog cArgs fsGiven (.exclude names) = .ok sel →
      sel.haps = catalog ∧ sel.clist.length = catalog.length ∧
      (∀ (j : Nat) (name : Str), catalog[j]? = some name →
        (sel.clist[j]? = some true ↔ name ∉ names) ∧
        (sel.clist[j]? = some false ↔ name ∈ names)) ∧
      counted sel = catalog.filter (fun name => decide (name ∉ names))) ∧
    (∀ sel : Selection, resolve catalog cArgs fsGiven (.list names) = .ok sel →
      sel.haps = catalog ∧ sel.clist.length = catalog.length ∧
      (∀ (j : Nat) (name : Str), catalog[j]? = some name →
        (sel.clist[j]? = some true ↔ name ∈ names) ∧
        (sel.clist[j]? = some false ↔ name ∉ names)) ∧
      counted sel = catalog.filter (fun name => decide (name ∈ names))) ∧
    (∃ sel, resolve catalog cArgs fsGiven .all = .ok sel ∧ sel.haps = catalog ∧
      sel.clist = List.replicate catalog.length true) ∧
    (∃ sel, resolve catalog cArgs fsGiven .noneCounted = .ok sel ∧ sel.haps = catalog ∧
      sel.clist = List.replicate catalog.length false) := by
  refine ⟨?_, ?_, ⟨_, rfl, rfl, rfl⟩, ⟨_, rfl, rfl, rfl⟩⟩
  · intro sel h
    obtain ⟨h1, h2, -, -⟩ := selectNames_flags hnodup h
    refine ⟨h1, by rw [h2, List.length_map], ?_, ?_⟩
    · intro j name hj
      rw [h2, List.getElem?_map, hj, Option.map_some']
      by_cases hm : name ∈ names <;> simp [hm]
    · obtain ⟨hp, cl, cf, w⟩ := sel
      simp only at h1 h2
      subst h1
      subst h2
      have hf : (fun name => if name ∈ names then !true else true) =
          fun name => decide (name ∉ names) := by
        funext name
        by_cases hm : name ∈ names <;> simp [hm]
      rw [counted_map, hf]
  · intro sel h
    obtain ⟨h1, h2, -, -⟩ := selectNames_flags hnodup h
    refine ⟨h1, by rw [h2, List.length_map], ?_, ?_⟩
    · intro j name hj
      rw [h2, List.getElem?_map, hj, Option.map_some']
      by_cases hm : name ∈ names <;> simp [hm]
    · obtain ⟨hp, cl, cf, w⟩ := sel
      simp only at h1 h2
      subst h1
      subst h2
      have hf : (fun name => if name ∈ names then !false else false) =
          fun name => decide (name ∈ names) := by
        funext name
        by_cases hm : name ∈ names <;> simp [hm]
      rw [counted_map, hf]

/-- Witness of C5: on the catalog `A, B, C`, `-exclude A` is accepted and counts `B, C`;
`-list A` is accepted and counts `A`. -/
theorem resolve_include_exclude_flags_witness :
    (∃ sel, resolve ["A".toList, "B".toList, "C".toList]
        ["-".toList, "-exclude".toList, "A".toList] true
        (.exclude ["A".toList]) = .ok sel ∧ sel.clist = [false, true, true] ∧
      counted sel = ["B".toList, "C".toList]) ∧
    (∃ sel, resolve ["A".toList, "B".toList, "C".toList]
        ["-".toList, "-list".toList, "A".toList] true
        (.list ["A".toList]) = .ok sel ∧ sel.clist = [true, false, false] ∧
      counted sel = ["A".toList]) := by
  refine ⟨⟨_, rfl, by decide, ?_⟩, ⟨_, rfl, by decide, ?_⟩⟩
  · rw [((resolve_include_exclude_flags ["A".toList, "B".toList, "C".toList]
      ["A".toList] ["-".toList, "-exclude".toList, "A".toList] true (by decide)).1 _
        rfl).2.2.2]
    decide
  · rw [((resolve_include_exclude_flags ["A".toList, "B".toList, "C".toList]
      ["A".toList] ["-".toList, "-list".toList, "A".toList] true (by decide)).2.1 _
        rfl).2.2.2]
    decide

theorem counted_first (cf : List Str) (w : Bool) :
    ∀ (paths : List Str) (cl : List Bool) (m : Nat), cl.length = paths.length →
      (∀ j, j < paths.length → cl[j]? = some (decide (j < m))) →
      counted { haps := paths, clist := cl, configFiles := cf, warned := w } =
        paths.take m := by
  intro paths
  induction paths with
  | nil =>
    intro cl m _ _
    simp [counted]
  | cons a rest ih =>
    intro cl m hlen hflag
    cases cl with
    | nil => simp at hlen
    | cons b cl2 =>
      have hlen2 : cl2.length = rest.length := by simpa using hlen
      have h0 := hflag 0 (by simp)
      simp only [List.getElem?_cons_zero, Option.some.injEq] at h0
      have hcounted : ∀ (x : Str) (y : Bool) (xs : List Str) (ys : List Bool),
          counted { haps := x :: xs, clist := y :: ys, configFiles := cf, warned := w } =
            if y = true then
              x :: counted { haps := xs, clist := ys, configFiles := cf, warned := w }
            else counted { haps := xs, clist := ys, configFiles := cf, warned := w } := by
        intro x y xs ys
        cases y <;> simp [counted, List.filter_cons]
      rw [hcounted]
      cases m with
      | zero =>
        have hb : b = false := by simpa using h0
        have := ih cl2 0 hlen2 (fun j hj => by
          have := hflag (j + 1) (by simp; omega)
          simpa using this)
        simp only [hb, Bool.false_eq_true, if_false, this, List.take_zero]
      | succ m =>
        have hb : b = true := by simpa using h0
        have := ih cl2 m hlen2 (fun j hj => by
          have := hflag (j + 1) (by simp; omega)
          simpa using this)
        simp only [hb, if_true, this, List.take_succ_cons]

/-- The loop of lines 197-199 when it stays inside `clist`. -/
theorem countFirst_ok :
    ∀ (todo i : Nat) (clist : List Bool), i + todo ≤ clist.length →
      ∃ cl, countFirst todo i clist = .ok cl ∧ cl.length = clist.length ∧
        ∀ j, cl[j]? = if i ≤ j ∧ j < i + todo then some true else clist[j]? := by
  intro todo
  induction todo with
  | zero =>
    intro i clist _
    refine ⟨clist, rfl, rfl, fun j => ?_⟩
    have : ¬ (i ≤ j ∧ j < i + 0) := by omega
    rw [if_neg this]
  | succ todo ih =>
    intro i clist h
    have hi : i < clist.length := by omega
    obtain ⟨cl, hc, hcl, hcj⟩ := ih (i + 1) (clist.set i true)
      (by rw [List.length_set]; omega)
    refine ⟨cl, ?_, by rw [hcl, List.length_set], ?_⟩
    · simp only [countFirst, setFlag, hi, if_true, hc]
    · intro j
      rw [hcj j]
      by_cases h1 : i + 1 ≤ j ∧ j < i + 1 + todo
      · have h2 : i ≤ j ∧ j < i + (todo + 1) := by omega
        rw [if_pos h1, if_pos h2]
      · rw [if_neg h1, List.getElem?_set]
        by_cases h3 : i = j
        · have h2 : i ≤ j ∧ j < i + (todo + 1) := by omega
          rw [if_pos h3, if_pos hi, if_pos h2]
        · have h2 : ¬ (i ≤ j ∧ j < i + (todo + 1)) := by omega
          rw [if_neg h3, if_neg h2]

/-- C7, counterexample: `-fa 1 paths` with `n = 1` not above the number of paths does not
return (a) for the arguments `-c - -fa 1 a.fasta` without `-fs`, where the assert of
line 194 fails, and (b) for the arguments `-fa 1 a.fasta -c sum.txt`, where the paths are
`a.fasta -c sum.txt` and `configFiles.assign` of line 192 runs past the one argument that
follows `-c`. -/
theorem resolve_fa_counterexample :
    (1 : Int) ≤ (["a.fasta".toList] : List Str).length ∧
    resolve hapDB ["-".toList, "-fa".toList, "1".toList, "a.fasta".toList] false
      (.fa 1 ["a.fasta".toList]) = .error .assertFailed ∧
    (1 : Int) ≤ (["a.fasta".toList, "-c".toList, "sum.txt".toList] : List Str).length ∧
    resolve hapDB ["sum.txt".toList] true
      (.fa 1 ["a.fasta".toList, "-c".toList, "sum.txt".toList]) = .error .outOfRange := by
  refine ⟨by decide, by decide, by decide, by decide⟩

/-- C7, amended: for `-fa n paths` with `0 ≤ n ≤` the number of paths (`n` an `int`), and
with either the suffix `-` and `-fs` given, or another suffix and at least as many arguments
from the suffix on as there are paths, the selection returns the paths in their order as
haplotype list, a flag list of the same length, and flag `j` true iff `j < n`. -/
theorem resolve_fa_first_n (catalog cArgs : List Str) (fsGiven : Bool) (n : Int)
    (paths : List Str) (hn0 : 0 ≤ n) (hn : n ≤ paths.length) (hint : n < 2 ^ 31)
    (hcfg : (cArgs.head? = some ['-'] ∧ fsGiven = true) ∨
      (∃ suffix, cArgs.head? = some suffix ∧ suffix ≠ ['-'] ∧ paths.length ≤ cArgs.length)) :
    ∃ sel, resolve catalog cArgs fsGiven (.fa n paths) = .ok sel ∧
      sel.haps = paths ∧ sel.clist.length = paths.length ∧
      (∀ j, j < paths.length → (sel.clist[j]? = some true ↔ (j : Int) < n) ∧
        (sel.clist[j]? = some false ↔ n ≤ (j : Int))) ∧
      counted sel = paths.take n.toNat := by
  have hsz : sizeOfInt n = n.toNat := by
    unfold sizeOfInt SIZE
    congr 1
    exact Int.emod_eq_of_lt hn0 (by norm_num; omega)
  have hle : n.toNat ≤ paths.length := by omega
  obtain ⟨cl, hc, hcl, hcj⟩ := countFirst_ok n.toNat 0 (List.replicate paths.length false)
    (by rw [List.length_replicate]; omega)
  have hcf : ∃ cf, (match cArgs.head? with
      | none => (.error .outOfRange : Except Fault (List Str))
      | some suffix =>
        if suffix ≠ ['-'] then
          if paths.length ≤ cArgs.length then .ok (cArgs.take paths.length)
          else .error .outOfRange
        else if fsGiven then .ok [] else .error .assertFailed) = .ok cf := by
    rcases hcfg with ⟨h1, h2⟩ | ⟨suffix, h1, h2, h3⟩
    · exact ⟨[], by rw [h1, h2]; simp⟩
    · exact ⟨cArgs.take paths.length, by rw [h1]; simp only [ne_eq, h2, not_false_eq_true, if_true, h3]⟩
  obtain ⟨cf, hcf⟩ := hcf
  have hflag : ∀ j, j < paths.length → cl[j]? = some (decide (j < n.toNat)) := by
    intro j hj
    rw [hcj j, List.getElem?_replicate]
    by_cases h1 : j < n.toNat
    · have : 0 ≤ j ∧ j < 0 + n.toNat := by omega
      rw [if_pos this]; simp [h1]
    · have : ¬ (0 ≤ j ∧ j < 0 + n.toNat) := by omega
      rw [if_neg this, if_pos hj]; simp [h1]
  refine ⟨{ haps := paths, clist := cl, configFiles := cf, warned := false }, ?_, rfl,
    by rw [hcl, List.length_replicate], ?_, ?_⟩
  · simp only [resolve, selectFiles, hcf, hsz, hc]
  · intro j hj
    show (cl[j]? = some true ↔ _) ∧ (cl[j]? = some false ↔ _)
    rw [hflag j hj]
    by_cases h1 : j < n.toNat
    · have : (j : Int) < n := by omega
      simp [h1, this]
    · have : ¬ (j : Int) < n := by omega
      have h2 : n ≤ (j : Int) := by omega
      simp [h1, this, h2]
  · exact counted_first cf false paths cl n.toNat (by rw [hcl, List.length_replicate]) hflag

/-- Witness of C7 (amended): the arguments `-fs 5 -c - -fa 1 x y`. -/
theorem resolve_fa_first_n_witness :
    ∃ sel, resolve hapDB ["-".toList, "-fa".toList, "1".toList, "x".toList, "y".toList] true
        (.fa 1 ["x".toList, "y".toList]) = .ok sel ∧
      sel.haps = ["x".toList, "y".toList] ∧
      sel.clist.length = (["x".toList, "y".toList] : List Str).length ∧
      (∀ j, j < (["x".toList, "y".toList] : List Str).length →
        (sel.clist[j]? = some true ↔ (j : Int) < 1) ∧
        (sel.clist[j]? = some false ↔ (1 : Int) ≤ (j : Int))) ∧
      counted sel = (["x".toList, "y".toList] : List Str).take (1 : Int).toNat :=
  resolve_fa_first_n hapDB ["-".toList, "-fa".toList, "1".toList, "x".toList, "y".toList]
    true 1 ["x".toList, "y".toList] (by decide) (by decide) (by decide) (Or.inl ⟨rfl, rfl⟩)

/-- C11 (two-name consistency check): for two names of the catalog (`size_t` lengths) given
to `-exclude` or `-list`, the selection accepts the pair if and only if the names are
identical up to their final character with one ending in `0` and the other in `1`; every
other pair stops the run (a failed assert, or the exception of `substr` on an empty name).
One catalog name is always accepted without warning, three or more catalog names always
with the warning of line 238. -/
theorem resolve_two_names_check (catalog cArgs : List Str) (fsGiven : Bool) (isEx : Bool)
    (a b : Str) (ha : a ∈ catalog) (hb : b ∈ catalog)
    (hal : a.length < SIZE) (hbl : b.length < SIZE) :
    ((∃ sel, resolve catalog cArgs fsGiven (if isEx then .exclude [a, b] else .list [a, b])
        = .ok sel) ↔ PhasedPair a b) ∧
    (¬ PhasedPair a b →
      ∃ e, resolve catalog cArgs fsGiven (if isEx then .exclude [a, b] else .list [a, b])
        = .error e ∧ (e = .uncaught ∨ e = .assertFailed)) ∧
    (∃ sel, resolve catalog cArgs fsGiven (if isEx then .exclude [a] else .list [a])
        = .ok sel ∧ sel.warned = false) ∧
    (∀ names : List Str, 3 ≤ names.length → (∀ s ∈ names, s ∈ catalog) →
      ∃ sel, resolve catalog cArgs fsGiven (if isEx then .exclude names else .list names)
        = .ok sel ∧ sel.warned = true) := by
  have hres : ∀ names, resolve catalog cArgs fsGiven
      (if isEx then .exclude names else .list names) = selectNames catalog isEx names := by
    intro names
    cases isEx <;> rfl
  have hall2 : ∀ s ∈ [a, b], s ∈ catalog := by
    intro s hs
    simp only [List.mem_cons, List.mem_singleton, List.not_mem_nil, or_false] at hs
    rcases hs with rfl | rfl
    · exact ha
    · exact hb
  obtain ⟨cl2, h2⟩ := selectNames_of_known catalog [a, b] isEx (by simp) hall2
  refine ⟨?_, ?_, ?_, ?_⟩
  · rw [hres, h2]
    constructor
    · rintro ⟨sel, hsel⟩
      cases hp : pairCheck [a, b] with
      | error e => rw [hp] at hsel; cases hsel
      | ok w => exact ((pairCheck_two_iff a b hal hbl w).1 hp).1
    · intro hpair
      have hp := (pairCheck_two_iff a b hal hbl false).2 ⟨hpair, rfl⟩
      rw [hp]
      exact ⟨_, rfl⟩
  · intro hnot
    rw [hres, h2]
    cases hp : pairCheck [a, b] with
    | error e => exact ⟨e, rfl, pairCheck_fault hp⟩
    | ok w => exact absurd ((pairCheck_two_iff a b hal hbl w).1 hp).1 hnot
  · obtain ⟨cl1, h1⟩ := selectNames_of_known catalog [a] isEx (by simp)
      (by intro s hs; simp only [List.mem_singleton] at hs; rw [hs]; exact ha)
    rw [hres, h1]
    exact ⟨_, rfl, rfl⟩
  · intro names h3 hall
    obtain ⟨cl3, hn⟩ := selectNames_of_known catalog names isEx
      (by intro h0; rw [h0] at h3; simp at h3) hall
    rw [hres, hn]
    rw [pairCheck_many names h3]
    exact ⟨_, rfl, rfl⟩

/-- Witness of C11: `-list AK1.h0 AK1.h1` on the catalog of the program is accepted, the two
names being `AK1.h` followed by `0` and by `1`. -/
theorem resolve_two_names_check_witness :
    PhasedPair "AK1.h0".toList "AK1.h1".toList ∧
    ∃ sel, resolve hapDB ["-".toList, "-list".toList, "AK1.h0".toList, "AK1.h1".toList] true
      (if false = true then Directive.exclude ["AK1.h0".toList, "AK1.h1".toList]
        else Directive.list ["AK1.h0".toList, "AK1.h1".toList]) = .ok sel :=
  have hp : PhasedPair "AK1.h0".toList "AK1.h1".toList :=
    ⟨"AK1.h".toList, Or.inl ⟨rfl, rfl⟩⟩
  ⟨hp, ((resolve_two_names_check hapDB
    ["-".toList, "-list".toList, "AK1.h0".toList, "AK1.h1".toList] true false
    "AK1.h0".toList "AK1.h1".toList (by decide) (by decide)
    (by unfold SIZE; decide) (by unfold SIZE; decide)).1).2 hp⟩

/-! ## The loop over the lines of a sequence file -/

theorem peekOf_records (recs : List Record) (h : ∀ r ∈ recs, r.WellFormed) :
    peekOf (recs.flatMap Record.toLines) = some '>' ∨
      peekOf (recs.flatMap Record.toLines) = none := by
  cases recs with
  | nil => exact Or.inr rfl
  | cons r rest =>
    left
    obtain ⟨hm, -, -⟩ := h r (List.mem_cons_self _ _)
    cases hmk : r.marker with
    | nil => rw [hmk] at hm; simp at hm
    | cons c cs =>
      rw [hmk] at hm
      simp only [List.head?_cons, Option.some.injEq] at hm
      simp only [List.flatMap_cons, Record.toLines, hmk, List.cons_append, peekOf, hm]

/-- A line that leaves the buffer empty before a record boundary: the locus index grows by
one, nothing else changes. -/
theorem recordStep_empty {κ : Type} [DecidableEq κ] (X : Extractor κ) (P : Params) (n : Nat)
    (count : Bool) (i : Nat) (dbs : Tables κ) (line : Str) (peek : Option Char)
    (hmark : line.head? = some '>') (hpeek : peek = some '>' ∨ peek = none) :
    recordStep X P n count { read := [], i := i, dbs := dbs } line peek =
      .ok { read := [], i := i + 1, dbs := dbs } := by
  simp only [recordStep, hmark, ne_eq, not_true_eq_false, if_false, hpeek, if_true]

/-- A marker line before a continuation line changes nothing. -/
theorem recordStep_marker {κ : Type} [DecidableEq κ] (X : Extractor κ) (P : Params) (n : Nat)
    (count : Bool) (i : Nat) (dbs : Tables κ) (line : Str) (c : Char)
    (hmark : line.head? = some '>') (hc : c ≠ '>') :
    recordStep X P n count { read := [], i := i, dbs := dbs } line (some c) =
      .ok { read := [], i := i, dbs := dbs } := by
  have hp : ¬ (some c = some '>' ∨ some c = (none : Option Char)) := by
    rintro (h | h)
    · exact hc (Option.some.inj h)
    · cases h
  simp only [recordStep, hmark, ne_eq, not_true_eq_false, if_false, hp]

theorem scanLines_cons {κ : Type} [DecidableEq κ] (X : Extractor κ) (P : Params) (n : Nat)
    (count : Bool) (line : Str) (rest : List Str) (st : Scan κ) :
    scanLines X P n count (line :: rest) st =
      match recordStep X P n count st line (peekOf rest) with
      | .error e => .error e
      | .ok st2 => scanLines X P n count rest st2 := rfl

/-- A continuation line before another continuation line is appended to the buffer. -/
theorem recordStep_append {κ : Type} [DecidableEq κ] (X : Extractor κ) (P : Params) (n : Nat)
    (count : Bool) (buf : Str) (i : Nat) (dbs : Tables κ) (line : Str) (c : Char)
    (hline : line.head? ≠ some '>') (hc : c ≠ '>') :
    recordStep X P n count { read := buf, i := i, dbs := dbs } line (some c) =
      .ok { read := buf ++ line, i := i, dbs := dbs } := by
  have hp : ¬ (some c = some '>' ∨ some c = (none : Option Char)) := by
    rintro (h | h)
    · exact hc (Option.some.inj h)
    · cases h
  simp only [recordStep, ne_eq, hline, not_false_eq_true, if_true, hp, if_false]

/-- A continuation line before a record boundary: the buffer with the line is extracted. -/
theorem recordStep_boundary {κ : Type} [DecidableEq κ] (X : Extractor κ) (P : Params)
    (n : Nat) (count : Bool) (buf : Str) (i : Nat) (dbs : Tables κ) (line : Str)
    (peek : Option Char) (hline : line.head? ≠ some '>') (hne : line ≠ [])
    (hpeek : peek = some '>' ∨ peek = none) :
    recordStep X P n count { read := buf, i := i, dbs := dbs } line peek =
      match extractRecord X P n count (buf ++ line) i dbs with
      | .error e => .error e
      | .ok dbs2 => .ok { read := [], i := i + 1, dbs := dbs2 } := by
  have hne2 : buf ++ line ≠ [] := fun h => hne (List.append_eq_nil.1 h).2
  simp only [recordStep, ne_eq, hline, not_false_eq_true, if_true, hpeek, hne2]

/-- The continuation lines of a record are gathered in the buffer and extracted once, at
the record boundary. -/
theorem scanLines_continuation {κ : Type} [DecidableEq κ] (X : Extractor κ) (P : Params)
    (n : Nat) (count : Bool) (rest : List Str)
    (hrest : peekOf rest = some '>' ∨ peekOf rest = none) :
    ∀ (conts : List Str) (buf : Str) (i : Nat) (dbs : Tables κ), conts ≠ [] →
      (∀ l ∈ conts, l ≠ [] ∧ l.head? ≠ some '>') →
      scanLines X P n count (conts ++ rest) { read := buf, i := i, dbs := dbs } =
        match extractRecord X P n count (buf ++ conts.flatten) i dbs with
        | .error e => .error e
        | .ok dbs2 => scanLines X P n count rest { read := [], i := i + 1, dbs := dbs2 } := by
  intro conts
  induction conts with
  | nil => intro buf i dbs h; exact absurd rfl h
  | cons c cs ih =>
    intro buf i dbs _ hwf
    obtain ⟨hc0, hc1⟩ := hwf c (List.mem_cons_self _ _)
    cases cs with
    | nil =>
      show scanLines X P n count (c :: rest) { read := buf, i := i, dbs := dbs } = _
      have hcat : buf ++ [c].flatten = buf ++ c := by simp
      rw [hcat, scanLines_cons, recordStep_boundary X P n count buf i dbs c _ hc1 hc0 hrest]
      cases extractRecord X P n count (buf ++ c) i dbs <;> rfl
    | cons c2 cs2 =>
      obtain ⟨hd0, hd1⟩ := hwf c2 (List.mem_cons_of_mem _ (List.mem_cons_self _ _))
      cases hc2 : c2 with
      | nil => exact absurd hc2 hd0
      | cons x xs =>
        have hx : x ≠ '>' := by
          intro hx
          apply hd1
          rw [hc2, hx]
          rfl
        have hih := ih (buf ++ c) i dbs (by simp) (fun l hl => hwf l (List.mem_cons_of_mem _ hl))
        rw [hc2] at hih
        have hcat : buf ++ (c :: (x :: xs) :: cs2).flatten =
            buf ++ c ++ ((x :: xs) :: cs2).flatten := by
          simp only [List.flatten_cons, List.append_assoc]
        rw [hcat, ← hih]
        show scanLines X P n count (c :: ((x :: xs) :: cs2 ++ rest))
          { read := buf, i := i, dbs := dbs } = _
        rw [scanLines_cons]
        have hpk : peekOf ((x :: xs) :: cs2 ++ rest) = some x := rfl
        rw [hpk, recordStep_append X P n count buf i dbs c x hc1 hx]

/-- A record is scanned as one extraction of its sequence at the current locus. -/
theorem scanLines_record {κ : Type} [DecidableEq κ] (X : Extractor κ) (P : Params) (n : Nat)
    (count : Bool) (r : Record) (hr : r.WellFormed) (rest : List Str)
    (hrest : peekOf rest = some '>' ∨ peekOf rest = none) (i : Nat) (dbs : Tables κ) :
    scanLines X P n count (r.toLines ++ rest) { read := [], i := i, dbs := dbs } =
      match extractRecord X P n count r.lines.flatten i dbs with
      | .error e => .error e
      | .ok dbs2 => scanLines X P n count rest { read := [], i := i + 1, dbs := dbs2 } := by
  obtain ⟨hm, hne, hwf⟩ := hr
  cases hl : r.lines with
  | nil => exact absurd hl hne
  | cons c cs =>
    obtain ⟨hc0, hc1⟩ := hwf c (by rw [hl]; exact List.mem_cons_self _ _)
    cases hcc : c with
    | nil => exact absurd hcc hc0
    | cons x xs =>
      have hx : x ≠ '>' := by
        intro hx
        apply hc1
        rw [hcc, hx]
        rfl
      have hstep : scanLines X P n count (r.toLines ++ rest)
          { read := [], i := i, dbs := dbs } =
          scanLines X P n count (r.lines ++ rest) { read := [], i := i, dbs := dbs } := by
        have hpk : peekOf (r.lines ++ rest) = some x := by
          rw [hl, hcc]; rfl
        show scanLines X P n count (r.marker :: (r.lines ++ rest)) _ = _
        rw [scanLines_cons, hpk, recordStep_marker X P n count i dbs r.marker x hm hx]
      rw [hstep]
      have := scanLines_continuation X P n count rest hrest r.lines [] i dbs hne hwf
      rw [List.nil_append] at this
      rw [this, hl, hcc]

theorem scanLines_records {κ : Type} [DecidableEq κ] (X : Extractor κ) (P : Params) (n : Nat)
    (count : Bool) :
    ∀ (recs : List Record) (i : Nat) (dbs : Tables κ), (∀ r ∈ recs, r.WellFormed) →
      scanLines X P n count (recs.flatMap Record.toLines) { read := [], i := i, dbs := dbs } =
        match extractCalls X P n count (recordCalls recs i) dbs with
        | .error e => .error e
        | .ok dbs2 => .ok { read := [], i := i + recs.length, dbs := dbs2 } := by
  intro recs
  induction recs with
  | nil => intro i dbs _; rfl
  | cons r rest ih =>
    intro i dbs hwf
    have hr := hwf r (List.mem_cons_self _ _)
    have hrest : ∀ r2 ∈ rest, r2.WellFormed := fun r2 h2 => hwf r2 (List.mem_cons_of_mem _ h2)
    rw [List.flatMap_cons, scanLines_record X P n count r hr _ (peekOf_records rest hrest)]
    have hcalls : recordCalls (r :: rest) i = (i, r.lines.flatten) :: recordCalls rest (i + 1) :=
      rfl
    rw [hcalls]
    simp only [extractCalls]
    cases extractRecord X P n count r.lines.flatten i dbs with
    | error e => rfl
    | ok dbs2 =>
      simp only []
      rw [ih (i + 1) dbs2 hrest]
      have hlen : i + 1 + rest.length = i + (r :: rest).length := by
        simp only [List.length_cons]; omega
      rw [hlen]

/-! ## Claims on the loop over the lines of a sequence file -/

/-- C13 (empty record still advances the locus): with an empty buffer, a marker line that
is followed by another marker line or by the end of the input makes no extraction, leaves
the three arrays as they are and raises the locus index by one; the lines after it are
scanned from an empty buffer at locus `i + 1`, which is also where they are scanned when
the record carries a sequence line and its extraction succeeds. -/
theorem empty_record_advances_locus {κ : Type} [DecidableEq κ] (X : Extractor κ) (P : Params)
    (n : Nat) (count : Bool) (i : Nat) (dbs : Tables κ) (marker : Str)
    (hmark : marker.head? = some '>') :
    (∀ peek, (peek = some '>' ∨ peek = none) →
      recordStep X P n count { read := [], i := i, dbs := dbs } marker peek =
        .ok { read := [], i := i + 1, dbs := dbs }) ∧
    (∀ rest, (peekOf rest = some '>' ∨ peekOf rest = none) →
      scanLines X P n count (marker :: rest) { read := [], i := i, dbs := dbs } =
        scanLines X P n count rest { read := [], i := i + 1, dbs := dbs }) ∧
    (∀ seq rest, seq ≠ [] → seq.head? ≠ some '>' →
      (peekOf rest = some '>' ∨ peekOf rest = none) →
      scanLines X P n count (marker :: seq :: rest) { read := [], i := i, dbs := dbs } =
        match extractRecord X P n count seq i dbs with
        | .error e => .error e
        | .ok dbs2 => scanLines X P n count rest { read := [], i := i + 1, dbs := dbs2 }) := by
  refine ⟨fun peek hpeek => recordStep_empty X P n count i dbs marker peek hmark hpeek, ?_, ?_⟩
  · intro rest hrest
    rw [scanLines_cons, recordStep_empty X P n count i dbs marker _ hmark hrest]
  · intro seq rest hne hseq hrest
    have h := scanLines_record X P n count { marker := marker, lines := [seq] }
      ⟨hmark, by simp, by
        intro l hl
        simp only [List.mem_singleton] at hl
        rw [hl]
        exact ⟨hne, hseq⟩⟩ rest hrest i dbs
    have hflat : [seq].flatten = seq := by simp
    simp only [hflat] at h
    exact h

/-- Witness of C13: the lines `>1`, `>2`, `TTTT` scanned from locus 0: the empty record
`>1` only moves the locus to 1, where `TTTT` is then extracted. -/
theorem empty_record_advances_locus_witness :
    scanLines sampleExtractor sampleParams 0 true [">1".toList, ">2".toList, "TTTT".toList]
        { read := [], i := 0, dbs := emptyTables Str 2 } =
      scanLines sampleExtractor sampleParams 0 true [">2".toList, "TTTT".toList]
        { read := [], i := 0 + 1, dbs := emptyTables Str 2 } :=
  (empty_record_advances_locus sampleExtractor sampleParams 0 true 0 (emptyTables Str 2)
    ">1".toList rfl).2.1 [">2".toList, "TTTT".toList] (Or.inl rfl)

/-- C15 (record-to-locus mapping): a sequence source made of `m` records, each a marker
line followed by one or more non-empty continuation lines not starting with `>`, scanned
from an empty buffer and locus 0, gives exactly one call of `getflanks` and of the three
extractions per record, the `j`-th with locus index `j`, the concatenation of the record's
continuation lines as sequence and its length as `rlen`; the scan ends at locus `m` with an
empty buffer (or stops at the first call that faults). -/
theorem scanLines_record_to_locus {κ : Type} [DecidableEq κ] (X : Extractor κ) (P : Params)
    (n : Nat) (count : Bool) (recs : List Record) (dbs : Tables κ)
    (hwf : ∀ r ∈ recs, r.WellFormed) :
    scanLines X P n count (recs.flatMap Record.toLines) { read := [], i := 0, dbs := dbs } =
      (match extractCalls X P n count (recordCalls recs 0) dbs with
        | .error e => .error e
        | .ok dbs2 => .ok { read := [], i := recs.length, dbs := dbs2 }) ∧
    (∀ (j : Nat) (r : Record), recs[j]? = some r →
      (recordCalls recs 0)[j]? = some (j, r.lines.flatten)) ∧
    (recordCalls recs 0).length = recs.length := by
  refine ⟨?_, ?_, ?_⟩
  · have h := scanLines_records X P n count recs 0 dbs hwf
    rw [Nat.zero_add] at h
    exact h
  · intro j r hj
    simp only [recordCalls, List.getElem?_enumFrom, List.getElem?_map, hj, Option.map_some',
      Nat.zero_add]
  · simp only [recordCalls, List.enumFrom_length, List.length_map]

/-- Witness of C15: the source `>1`, `ACGTACGT`, `>2`, `TTTT` gives the calls
`(0, ACGTACGT)` with `rlen = 8` and `(1, TTTT)` with `rlen = 4`, and ends at locus 2. -/
theorem scanLines_record_to_locus_witness :
    sampleRecords.flatMap Record.toLines =
      [">1".toList, "ACGTACGT".toList, ">2".toList, "TTTT".toList] ∧
    recordCalls sampleRecords 0 = [(0, "ACGTACGT".toList), (1, "TTTT".toList)] ∧
    "ACGTACGT".toList.length = 8 ∧ "TTTT".toList.length = 4 ∧
    scanLines sampleExtractor sampleParams 0 true (sampleRecords.flatMap Record.toLines)
        { read := [], i := 0, dbs := emptyTables Str 2 } =
      (match extractCalls sampleExtractor sampleParams 0 true (recordCalls sampleRecords 0)
          (emptyTables Str 2) with
        | .error e => .error e
        | .ok dbs2 => .ok { read := [], i := sampleRecords.length, dbs := dbs2 }) :=
  ⟨by decide, by decide, by decide, by decide,
    (scanLines_record_to_locus sampleExtractor sampleParams 0 true sampleRecords
      (emptyTables Str 2) (by
        intro r hr
        simp only [sampleRecords, List.mem_cons, List.mem_singleton, List.not_mem_nil,
          or_false] at hr
        rcases hr with rfl | rfl
        · exact ⟨by decide, by decide, by decide⟩
        · exact ⟨by decide, by decide, by decide⟩)).1⟩

/-! ## Claims on the program -/

/-- C14 (uniform flank smaller than NTR size is fatal): when the flank size `fs` is below
the NTR size the run stops on the assert of line 153, whatever the files, the directive and
the other options are, hence before any haplotype is resolved, any sequence read or any
window computed; a run that reaches the loop has `fs ≥ NTRsize`, and then the uniform
branch of `getflanks` returns `lntr_l = rntr_r = fs - NTRsize` without wrapping. -/
theorem run_small_flank_fatal {κ : Type} [DecidableEq κ] (X : Extractor κ) (w : World)
    (cfg : Config) (h : cfg.fs < cfg.NTRsize) :
    run X w cfg = .error .assertFailed ∧
    (∀ (w2 : World) (cfg2 : Config), cfg2.fs = cfg.fs → cfg2.NTRsize = cfg.NTRsize →
      run X w2 cfg2 = .error .assertFailed) ∧
    (∀ (w2 : World) (cfg2 : Config) (T : Tables κ), run X w2 cfg2 = .ok T →
      cfg2.NTRsize ≤ cfg2.fs ∧
      (cfg2.fs < SIZE → ∀ t i n k rlen, ∃ fl,
        getflanks t i n cfg2.fs cfg2.NTRsize k rlen false = some fl ∧
        fl.lntr_l = cfg2.fs - cfg2.NTRsize ∧ fl.rntr_r = cfg2.fs - cfg2.NTRsize ∧
        fl.lntr_l + cfg2.NTRsize = cfg2.fs)) := by
  have hstop : ∀ (w2 : World) (cfg2 : Config), cfg2.fs < cfg2.NTRsize →
      run X w2 cfg2 = .error .assertFailed := by
    intro w2 cfg2 h2
    unfold run
    rw [if_neg (by omega)]
  refine ⟨hstop w cfg h, fun w2 cfg2 e1 e2 => hstop w2 cfg2 (by omega), ?_⟩
  intro w2 cfg2 T hT
  have hge : cfg2.NTRsize ≤ cfg2.fs := by
    by_contra hlt
    rw [hstop w2 cfg2 (by omega)] at hT
    cases hT
  refine ⟨hge, ?_⟩
  intro hfs t i n k rlen
  have hu := usub_eq_sub hfs hge
  refine ⟨_, by simp only [getflanks, flankSizes, Bool.false_eq_true, if_false, hu]; rfl, rfl,
    rfl, ?_⟩
  show cfg2.fs - cfg2.NTRsize + cfg2.NTRsize = cfg2.fs
  omega

/-- Witness of C14: `-fs 2 -ntr 3` stops the run on the assert. -/
theorem run_small_flank_fatal_witness :
    run sampleExtractor emptyWorld sampleSmallFlank = .error .assertFailed :=
  (run_small_flank_fatal sampleExtractor emptyWorld sampleSmallFlank (by decide)).1

/-- C16, the code at `-nonca`: the run is the same whatever `canonical_mode` holds; the
variable is assigned at lines 162-163 and never read, the counted branch calls
`buildNuKmers` with five arguments (lines 293-295) and the built-only branch with `false`
(lines 315-317), so the flag handed to the extractor is the haplotype's `clist` entry
alone. -/
theorem run_ignores_canonical_mode {κ : Type} [DecidableEq κ] (X : Extractor κ) (w : World)
    (cfg : Config) (b : Bool) :
    run X w { cfg with canonical_mode := b } = run X w cfg ∧
    (∀ (files : Str → FileText) (P : Params) (isFa masked : Bool) (clist : List Bool)
      (fname : Str) (rest : List Str) (n : Nat) (dbs : Tables κ) (flag : Bool),
      clist[n]? = some flag →
      accumulate X files P isFa masked clist (fname :: rest) n dbs =
        match runHap X files P isFa masked n fname flag dbs with
        | .error e => .error e
        | .ok dbs2 => accumulate X files P isFa masked clist rest (n + 1) dbs2) := by
  refine ⟨rfl, ?_⟩
  intro files P isFa masked clist fname rest n dbs flag hflag
  simp only [accumulate, hflag]

/-- C18 (table indexing stays in bounds): for a table of `nloci` rows and `3 * nhap`
columns whose rows are addressable (`8 · 3 · nhap < 2^64`): in `readBedTable`, for
`k < nhap`, under the guards `i < nloci` and `j < 7`, and for `j ≥ 4`, the sum `3k + j` does
not overflow, subtracting 4 does not underflow, the column `3k + j - 4` lies between `3k`
and `3k + 2`, below `3 · nhap`, and the write succeeds; in measured mode of `getflanks`,
for `i < nloci` and `n < nhap`, the reads at columns `3n` and `3n + 2` lie inside the table
and are the columns written for fields 4 and 6 of haplotype `n`. -/
theorem table_indexing_in_bounds (t : SizeTable) (nloci nhap : Nat)
    (hs : Shape t nloci (3 * nhap)) (haddr : 8 * (3 * nhap) < SIZE) :
    (∀ k i j v, k < nhap → i < nloci → j < 7 → 4 ≤ j →
      uadd (umul 3 k) j = 3 * k + j ∧ 4 ≤ uadd (umul 3 k) j ∧
      usub (uadd (umul 3 k) j) 4 = 3 * k + (j - 4) ∧
      3 * k ≤ usub (uadd (umul 3 k) j) 4 ∧ usub (uadd (umul 3 k) j) 4 ≤ 3 * k + 2 ∧
      usub (uadd (umul 3 k) j) 4 < 3 * nhap ∧
      (∃ old, tableAt t i (usub (uadd (umul 3 k) j) 4) = some old) ∧
      (∃ t2, setAt t i (usub (uadd (umul 3 k) j) 4) v = .ok t2)) ∧
    (∀ i n, i < nloci → n < nhap →
      umul 3 n = 3 * n ∧ uadd (umul 3 n) 2 = 3 * n + 2 ∧ 3 * n + 2 < 3 * nhap ∧
      (∃ l r, tableAt t i (umul 3 n) = some l ∧ tableAt t i (uadd (umul 3 n) 2) = some r) ∧
      umul 3 n = usub (uadd (umul 3 n) 4) 4 ∧
      uadd (umul 3 n) 2 = usub (uadd (umul 3 n) 6) 4) := by
  have hwide : 3 * nhap < SIZE := by omega
  have hread : ∀ i j, i < nloci → j < 3 * nhap → ∃ x, tableAt t i j = some x := by
    intro i j hi hj
    have hi2 : i < t.length := by rw [hs.1]; exact hi
    have hrow : t[i]? = some t[i] := List.getElem?_eq_getElem hi2
    have hlen : (t[i]).length = 3 * nhap := hs.2 _ (List.getElem_mem hi2)
    refine ⟨(t[i])[j], ?_⟩
    simp only [tableAt, hrow]
    exact List.getElem?_eq_getElem (by omega)
  constructor
  · intro k i j v hk hi hj7 hj4
    have e1 : uadd (umul 3 k) j = 3 * k + j := by
      unfold uadd umul SIZE at *
      omega
    have e2 : usub (uadd (umul 3 k) j) 4 = 3 * k + (j - 4) := by
      rw [column_index hj4 (by omega) (by omega)]
      omega
    refine ⟨e1, by omega, e2, by omega, by omega, by omega, ?_, ?_⟩
    · rw [e2]
      exact hread i _ hi (by omega)
    · obtain ⟨t2, ht2, -⟩ := setAt_ok (i := i) (j := 3 * k + (j - 4)) v hs hi (by omega)
      rw [e2]
      exact ⟨t2, ht2⟩
  · intro i n hi hn
    have e1 : umul 3 n = 3 * n := by
      unfold umul SIZE at *
      omega
    have e2 : uadd (umul 3 n) 2 = 3 * n + 2 := by
      unfold uadd umul SIZE at *
      omega
    have e3 : usub (uadd (umul 3 n) 4) 4 = 3 * n := by
      rw [column_index (Nat.le_refl 4) (by omega) (by omega)]
      omega
    have e4 : usub (uadd (umul 3 n) 6) 4 = 3 * n + 2 := by
      rw [column_index (by omega) (by omega) (by omega)]
      omega
    refine ⟨e1, e2, by omega, ?_, e1.trans e3.symm, e2.trans e4.symm⟩
    obtain ⟨l, hl⟩ := hread i (3 * n) hi (by omega)
    obtain ⟨r, hr⟩ := hread i (3 * n + 2) hi (by omega)
    exact ⟨l, r, by rw [e1]; exact hl, by rw [e2]; exact hr⟩

/-- Witness of C18: the table of 2 loci and 2 haplotypes. -/
theorem table_indexing_in_bounds_witness :
    (∃ t2, setAt sampleTable 1 (usub (uadd (umul 3 1) 6) 4) 9 = .ok t2) ∧
    (∃ l r, tableAt sampleTable 1 (umul 3 1) = some l ∧
      tableAt sampleTable 1 (uadd (umul 3 1) 2) = some r) :=
  have h := table_indexing_in_bounds sampleTable 2 2 ⟨by decide, by decide⟩
    (by unfold SIZE; norm_num)
  ⟨(h.1 1 1 6 9 (by decide) (by decide) (by decide) (by decide)).2.2.2.2.2.2.2,
    (h.2 1 1 (by decide) (by decide)).2.2.2.1⟩

/-! ## Increments commute -/

theorem addCount_comm {κ : Type} [DecidableEq κ] (cmod : Nat) (db : KmerDB κ) (x y : κ)
    (c d : Nat) :
    addCount cmod (addCount cmod db x c) y d = addCount cmod (addCount cmod db y d) x c := by
  funext z
  by_cases hxy : x = y
  · subst hxy
    by_cases hz : z = x
    · subst hz
      simp only [addCount, if_true, Option.getD_some, Nat.mod_add_mod]
      congr 2
      omega
    · simp only [addCount, hz, if_false]
  · by_cases hx : z = x
    · subst hx
      simp only [addCount, hxy, if_true, if_false]
    · by_cases hy : z = y
      · subst hy
        simp only [addCount, hx, if_true, if_false]
      · simp only [addCount, hx, hy, if_false]

theorem length_bumpAt {κ : Type} [DecidableEq κ] (cmod : Nat) (DB : List (KmerDB κ)) (i : Nat)
    (x : κ) (c : Nat) : (bumpAt cmod DB i x c).length = DB.length := by
  unfold bumpAt
  cases DB[i]? with
  | none => rfl
  | some db => simp only [List.length_set]

theorem getElem?_bumpAt {κ : Type} [DecidableEq κ] (cmod : Nat) (DB : List (KmerDB κ))
    (i : Nat) (x : κ) (c : Nat) (m : Nat) :
    (bumpAt cmod DB i x c)[m]? =
      if i = m then (DB[m]?).map (fun db => addCount cmod db x c) else DB[m]? := by
  unfold bumpAt
  by_cases him : i = m
  · subst him
    rw [if_pos rfl]
    cases h : DB[i]? with
    | none => simp only [h, Option.map_none']
    | some db =>
      have hlt : i < DB.length := by
        by_contra hge
        rw [List.getElem?_eq_none (by omega)] at h
        cases h
      simp only [List.getElem?_set, if_true, hlt, Option.map_some']
  · rw [if_neg him]
    cases h : DB[i]? with
    | none => rfl
    | some db => simp only [List.getElem?_set, him, if_false]

theorem bumpAt_comm {κ : Type} [DecidableEq κ] (cmod : Nat) (DB : List (KmerDB κ))
    (i j : Nat) (x y : κ) (c d : Nat) :
    bumpAt cmod (bumpAt cmod DB i x c) j y d = bumpAt cmod (bumpAt cmod DB j y d) i x c := by
  apply List.ext_getElem?
  intro m
  simp only [getElem?_bumpAt]
  by_cases hi : i = m
  · by_cases hj : j = m
    · simp only [hi, hj, if_true, Option.map_map]
      congr 1
      funext db
      exact addCount_comm cmod db x y c d
    · simp only [hi, hj, if_true, if_false]
  · by_cases hj : j = m
    · simp only [hi, hj, if_true, if_false]
    · simp only [hi, hj, if_false]

theorem applyBump_comm {κ : Type} [DecidableEq κ] (cmod : Nat) (T : Tables κ) (a b : Bump κ) :
    applyBump cmod (applyBump cmod T a) b = applyBump cmod (applyBump cmod T b) a := by
  obtain ⟨ra, ia, xa, ca⟩ := a
  obtain ⟨rb, ib, xb, cb⟩ := b
  cases ra <;> cases rb <;> simp only [applyBump] <;>
    first
    | rfl
    | (rw [bumpAt_comm])

theorem foldl_applyBump_comm {κ : Type} [DecidableEq κ] (cmod : Nat) (T : Tables κ)
    (l1 l2 : List (Bump κ)) :
    l2.foldl (applyBump cmod) (l1.foldl (applyBump cmod) T) =
      l1.foldl (applyBump cmod) (l2.foldl (applyBump cmod) T) := by
  rw [← List.foldl_append, ← List.foldl_append]
  exact List.Perm.foldl_eq' List.perm_append_comm
    (fun x _ y _ z => applyBump_comm cmod z x y) T

/-- The result of the haplotypes' increments does not depend on the order of the
haplotypes, a run that stops apart: it stops in either order. -/
theorem foldBumps_perm {κ : Type} [DecidableEq κ] (cmod : Nat)
    (own : Haplotype → Except Fault (List (Bump κ))) {hs1 hs2 : List Haplotype}
    (hperm : hs1.Perm hs2) :
    ∀ T : Tables κ, (foldBumps cmod own hs1 T).toOption = (foldBumps cmod own hs2 T).toOption := by
  induction hperm with
  | nil => intro T; rfl
  | cons a _ ih =>
    intro T
    simp only [foldBumps]
    cases own a with
    | error e => rfl
    | ok ops => exact ih _
  | swap a b l =>
    intro T
    simp only [foldBumps]
    cases own a with
    | error e =>
      cases own b with
      | error e2 => rfl
      | ok ops2 => rfl
    | ok ops =>
      cases own b with
      | error e2 => rfl
      | ok ops2 =>
        simp only []
        rw [foldl_applyBump_comm]
  | trans _ _ ih1 ih2 =>
    intro T
    rw [ih1 T, ih2 T]

/-! ## A scan is the list of its increments -/

theorem sized_applyBump {κ : Type} [DecidableEq κ] (cmod : Nat) {T : Tables κ} {nloci : Nat}
    (hT : Sized T nloci) (b : Bump κ) : Sized (applyBump cmod T b) nloci := by
  obtain ⟨h1, h2, h3⟩ := hT
  obtain ⟨r, i, x, c⟩ := b
  cases r
  · exact ⟨by simp only [applyBump, length_bumpAt]; exact h1, h2, h3⟩
  · exact ⟨h1, by simp only [applyBump, length_bumpAt]; exact h2, h3⟩
  · exact ⟨h1, h2, by simp only [applyBump, length_bumpAt]; exact h3⟩

theorem sized_foldl {κ : Type} [DecidableEq κ] (cmod : Nat) {nloci : Nat} :
    ∀ (ops : List (Bump κ)) {T : Tables κ}, Sized T nloci →
      Sized (ops.foldl (applyBump cmod) T) nloci := by
  intro ops
  induction ops with
  | nil => intro T hT; exact hT
  | cons b rest ih => intro T hT; exact ih (sized_applyBump cmod hT b)

theorem set_self_of_getElem? {α : Type} (l : List α) (i : Nat) (a : α) (h : l[i]? = some a) :
    l.set i a = l := by
  apply List.ext_getElem?
  intro m
  rw [List.getElem?_set]
  by_cases him : i = m
  · subst him
    have hlt : i < l.length := by
      by_contra hge
      rw [List.getElem?_eq_none (by omega)] at h
      cases h
    rw [if_pos rfl, if_pos hlt, h]
  · rw [if_neg him]

theorem foldl_bumpAt_set {κ : Type} [DecidableEq κ] (cmod : Nat) (i c : Nat) :
    ∀ (ks : List κ) (DB : List (KmerDB κ)) (db : KmerDB κ), DB[i]? = some db →
      ks.foldl (fun D x => bumpAt cmod D i x c) DB =
        DB.set i (ks.foldl (fun d x => addCount cmod d x c) db) := by
  intro ks
  induction ks with
  | nil =>
    intro DB db h
    exact (set_self_of_getElem? DB i db h).symm
  | cons x rest ih =>
    intro DB db h
    have hlt : i < DB.length := by
      by_contra hge
      rw [List.getElem?_eq_none (by omega)] at h
      cases h
    have hb : bumpAt cmod DB i x c = DB.set i (addCount cmod db x c) := by
      simp only [bumpAt, h]
    have hget : (DB.set i (addCount cmod db x c))[i]? = some (addCount cmod db x c) := by
      rw [List.getElem?_set, if_pos rfl, if_pos hlt]
    simp only [List.foldl_cons]
    rw [hb, ih _ _ hget, List.set_set]

theorem foldl_bumps_tr {κ : Type} [DecidableEq κ] (cmod : Nat) (i c : Nat) :
    ∀ (ks : List κ) (T : Tables κ),
      (ks.map (fun x => Bump.mk Region.tr i x c)).foldl (applyBump cmod) T =
        { T with TRkmersDB := ks.foldl (fun D x => bumpAt cmod D i x c) T.TRkmersDB } := by
  intro ks
  induction ks with
  | nil => intro T; rfl
  | cons x rest ih => intro T; simp only [List.map_cons, List.foldl_cons, ih, applyBump]

theorem foldl_bumps_lntr {κ : Type} [DecidableEq κ] (cmod : Nat) (i c : Nat) :
    ∀ (ks : List κ) (T : Tables κ),
      (ks.map (fun x => Bump.mk Region.lntr i x c)).foldl (applyBump cmod) T =
        { T with lNTRkmersDB := ks.foldl (fun D x => bumpAt cmod D i x c) T.lNTRkmersDB } := by
  intro ks
  induction ks with
  | nil => intro T; rfl
  | cons x rest ih => intro T; simp only [List.map_cons, List.foldl_cons, ih, applyBump]

theorem foldl_bumps_rntr {κ : Type} [DecidableEq κ] (cmod : Nat) (i c : Nat) :
    ∀ (ks : List κ) (T : Tables κ),
      (ks.map (fun x => Bump.mk Region.rntr i x c)).foldl (applyBump cmod) T =
        { T with rNTRkmersDB := ks.foldl (fun D x => bumpAt cmod D i x c) T.rNTRkmersDB } := by
  intro ks
  induction ks with
  | nil => intro T; rfl
  | cons x rest ih => intro T; simp only [List.map_cons, List.foldl_cons, ih, applyBump]

theorem buildAt_of_getElem? {κ : Type} [DecidableEq κ] (X : Extractor κ)
    (DB : List (KmerDB κ)) (i : Nat) (read : Str) (k l r : Nat) (count : Bool)
    (hi : i < DB.length) :
    buildAt X DB i read k l r count =
      .ok (((windowStarts k read.length l r).map (X.kmerAt read k)).foldl
        (fun D x => bumpAt X.cmod D i x (if count then 1 else 0)) DB) := by
  have hget : DB[i]? = some DB[i] := List.getElem?_eq_getElem hi
  rw [foldl_bumpAt_set X.cmod i _ _ DB DB[i] hget]
  simp only [buildAt, hget, buildNuKmers]

theorem buildAt_outside {κ : Type} [DecidableEq κ] (X : Extractor κ)
    (DB : List (KmerDB κ)) (i : Nat) (read : Str) (k l r : Nat) (count : Bool)
    (hi : ¬ i < DB.length) : buildAt X DB i read k l r count = .error .outOfRange := by
  simp only [buildAt, List.getElem?_eq_none (Nat.le_of_not_lt hi)]

/-- The three extractions of a record are its increments carried out, or stop when the
record has none. -/
theorem extractRecord_eq_bumps {κ : Type} [DecidableEq κ] (X : Extractor κ) (P : Params)
    (n : Nat) (count : Bool) (nloci : Nat) (read : Str) (i : Nat) (T : Tables κ)
    (hT : Sized T nloci) :
    extractRecord X P n count read i T =
      match recordBumps X P n count nloci read i with
      | .error e => .error e
      | .ok ops => .ok (ops.foldl (applyBump X.cmod) T) := by
  obtain ⟨h1, h2, h3⟩ := hT
  unfold extractRecord recordBumps
  cases getflanks P.sizeTable i n P.fs P.NTRsize P.k read.length P.hasConf with
  | none => rfl
  | some fl =>
    by_cases hi : i < nloci
    · simp only [hi, if_true, windowBumps, List.foldl_append, List.map_map]
      rw [buildAt_of_getElem? X _ i read _ _ _ count (by rw [h1]; exact hi),
        buildAt_of_getElem? X _ i read _ _ _ count (by rw [h2]; exact hi),
        buildAt_of_getElem? X _ i read _ _ _ count (by rw [h3]; exact hi)]
      simp only []
      rw [← List.map_map, ← List.map_map, ← List.map_map, foldl_bumps_tr, foldl_bumps_lntr,
        foldl_bumps_rntr]
    · simp only [hi, if_false]
      rw [buildAt_outside X _ i read _ _ _ count (by rw [h1]; exact hi)]

theorem scanBumps_cons {κ : Type} (record : Str → Nat → Except Fault (List (Bump κ)))
    (line : Str) (rest : List Str) (read : Str) (i : Nat) :
    scanBumps record (line :: rest) read i =
      if peekOf rest = some '>' ∨ peekOf rest = none then
        if (if line.head? ≠ some '>' then read ++ line else read) ≠ [] then
          match record (if line.head? ≠ some '>' then read ++ line else read) i with
          | .error e => .error e
          | .ok ops =>
            match scanBumps record rest [] (i + 1) with
            | .error e => .error e
            | .ok ops2 => .ok (ops ++ ops2)
        else scanBumps record rest [] (i + 1)
      else scanBumps record rest (if line.head? ≠ some '>' then read ++ line else read) i :=
  rfl

/-- The arrays a scan leaves are its increments carried out on the arrays it starts
from; it stops exactly when its list of increments does. -/
theorem scanLines_eq_bumps {κ : Type} [DecidableEq κ] (X : Extractor κ) (P : Params) (n : Nat)
    (count : Bool) (nloci : Nat) :
    ∀ (lines : List Str) (read : Str) (i : Nat) (T : Tables κ), Sized T nloci →
      (match scanLines X P n count lines { read := read, i := i, dbs := T } with
        | .error e => (.error e : Except Fault (Tables κ))
        | .ok st => .ok st.dbs) =
      match scanBumps (recordBumps X P n count nloci) lines read i with
      | .error e => .error e
      | .ok ops => .ok (ops.foldl (applyBump X.cmod) T) := by
  intro lines
  induction lines with
  | nil => intro read i T _; rfl
  | cons line rest ih =>
    intro read i T hT
    rw [scanLines_cons, scanBumps_cons]
    unfold recordStep
    simp only []
    by_cases hb : peekOf rest = some '>' ∨ peekOf rest = none
    · rw [if_pos hb, if_pos hb]
      by_cases hne : (if line.head? ≠ some '>' then read ++ line else read) ≠ []
      · rw [if_pos hne, if_pos hne, extractRecord_eq_bumps X P n count nloci _ i T hT]
        cases hrec : recordBumps X P n count nloci
            (if line.head? ≠ some '>' then read ++ line else read) i with
        | error e => rfl
        | ok ops =>
          simp only []
          rw [ih [] (i + 1) _ (sized_foldl X.cmod ops hT)]
          cases scanBumps (recordBumps X P n count nloci) rest [] (i + 1) with
          | error e => rfl
          | ok ops2 => simp only [List.foldl_append]
      · rw [if_neg hne, if_neg hne]
        exact ih [] (i + 1) T hT
    · rw [if_neg hb, if_neg hb]
      exact ih _ i T hT

/-! ## The boundary columns a haplotype is read with -/

theorem getElem?_triples (f : Haplotype → Nat × Nat × Nat) :
    ∀ (hs : List Haplotype) (n : Nat) (h : Haplotype), hs[n]? = some h →
      (hs.flatMap (fun h => [(f h).1, (f h).2.1, (f h).2.2]))[3 * n]? = some (f h).1 ∧
      (hs.flatMap (fun h => [(f h).1, (f h).2.1, (f h).2.2]))[3 * n + 2]? =
        some (f h).2.2 := by
  intro hs
  induction hs with
  | nil => intro n h hn; simp at hn
  | cons a rest ih =>
    intro n h hn
    cases n with
    | zero =>
      simp only [List.getElem?_cons_zero, Option.some.injEq] at hn
      subst hn
      simp only [List.flatMap_cons, List.cons_append, List.nil_append, Nat.mul_zero,
        Nat.zero_add, List.getElem?_cons_zero, List.getElem?_cons_succ, and_self]
    | succ n =>
      simp only [List.getElem?_cons_succ] at hn
      obtain ⟨h1, h2⟩ := ih n h hn
      have e1 : 3 * (n + 1) = 3 * n + 1 + 1 + 1 := by omega
      have e2 : 3 * n + 1 + 1 + 1 + 2 = 3 * n + 2 + 1 + 1 + 1 := by omega
      rw [e1, e2]
      simp only [List.flatMap_cons, List.cons_append, List.nil_append,
        List.getElem?_cons_succ]
      exact ⟨h1, h2⟩

theorem tableAt_boundaryTable (nloci : Nat) (hs : List Haplotype) (n : Nat) (h : Haplotype)
    (hn : hs[n]? = some h) (i : Nat) :
    tableAt (boundaryTable nloci hs) i (3 * n) =
        (if i < nloci then some (h.bounds i).1 else none) ∧
    tableAt (boundaryTable nloci hs) i (3 * n + 2) =
        (if i < nloci then some (h.bounds i).2.2 else none) := by
  unfold tableAt boundaryTable
  by_cases hi : i < nloci
  · obtain ⟨h1, h2⟩ := getElem?_triples (fun h => h.bounds i) hs n h hn
    simp only [List.getElem?_map, List.getElem?_range hi, Option.map_some', hi, if_true]
    exact ⟨h1, h2⟩
  · have hnone : (List.range nloci)[i]? = none :=
      List.getElem?_eq_none (by simp only [List.length_range]; omega)
    simp only [List.getElem?_map, hnone, Option.map_none', hi, if_false, and_self]

/-- In the table made of the haplotypes' columns, `getflanks` for haplotype `n` is
`getflanks` for the haplotype alone. -/
theorem getflanks_boundaryTable (nloci : Nat) (hs : List Haplotype) (n : Nat) (h : Haplotype)
    (hn : hs[n]? = some h) (hsize : 3 * hs.length < SIZE) (i fs NTRsize k rlen : Nat)
    (hasConf : Bool) :
    getflanks (boundaryTable nloci hs) i n fs NTRsize k rlen hasConf =
      getflanks (boundaryTable nloci [h]) i 0 fs NTRsize k rlen hasConf := by
  have hlt : n < hs.length := by
    by_contra hge
    rw [List.getElem?_eq_none (by omega)] at hn
    cases hn
  have e1 : umul 3 n = 3 * n := Nat.mod_eq_of_lt (by omega)
  have e2 : uadd (3 * n) 2 = 3 * n + 2 := Nat.mod_eq_of_lt (by omega)
  have e3 : umul 3 0 = 3 * 0 := by decide
  have e4 : uadd (3 * 0) 2 = 3 * 0 + 2 := by decide
  obtain ⟨a1, a2⟩ := tableAt_boundaryTable nloci hs n h hn i
  obtain ⟨b1, b2⟩ := tableAt_boundaryTable nloci [h] 0 h rfl i
  unfold getflanks flankSizes
  rw [e1, e2, e3, e4, a1, a2, b1, b2]

theorem recordBumps_boundaryTable {κ : Type} (X : Extractor κ) (nloci : Nat)
    (hs : List Haplotype) (n : Nat) (h : Haplotype) (hn : hs[n]? = some h)
    (hsize : 3 * hs.length < SIZE) (fs NTRsize k : Nat) (hasConf count : Bool) :
    recordBumps X (Params.mk (boundaryTable nloci hs) fs NTRsize k hasConf) n count nloci =
      recordBumps X (Params.mk (boundaryTable nloci [h]) fs NTRsize k hasConf) 0 count
        nloci := by
  funext read i
  unfold recordBumps
  simp only [getflanks_boundaryTable nloci hs n h hn hsize]

/-- The loop over the haplotypes is the haplotypes' own increments carried out in turn. -/
theorem accumulate_eq_foldBumps {κ : Type} [DecidableEq κ] (X : Extractor κ)
    (files : Str → FileText) (fs NTRsize k : Nat) (hasConf isFa masked : Bool) (nloci : Nat)
    (hs : List Haplotype) (hsize : 3 * hs.length < SIZE) :
    ∀ (suffix pre : List Haplotype) (T : Tables κ), hs = pre ++ suffix → Sized T nloci →
      accumulate X files (Params.mk (boundaryTable nloci hs) fs NTRsize k hasConf) isFa masked
          (hs.map (fun h => h.counted)) (suffix.map (fun h => h.name)) pre.length T =
        foldBumps X.cmod (ownBumps X files fs NTRsize k hasConf isFa masked nloci) suffix T := by
  intro suffix
  induction suffix with
  | nil => intro pre T _ _; rfl
  | cons h rest ih =>
    intro pre T hsplit hT
    have hn : hs[pre.length]? = some h := by
      rw [hsplit, List.getElem?_append_right (Nat.le_refl _), Nat.sub_self,
        List.getElem?_cons_zero]
    have hflag : (hs.map (fun h => h.counted))[pre.length]? = some h.counted := by
      rw [List.getElem?_map, hn]; rfl
    have hnext := fun T2 hT2 => ih (pre ++ [h]) T2 (by rw [hsplit]; simp) hT2
    simp only [List.length_append, List.length_singleton] at hnext
    simp only [List.map_cons, accumulate, hflag, foldBumps, runHap, ownBumps]
    cases files (seqFile isFa masked h.name) with
    | none => rfl
    | some lines =>
      simp only []
      have hscan := scanLines_eq_bumps X (Params.mk (boundaryTable nloci hs) fs NTRsize k
        hasConf) pre.length h.counted nloci lines [] 0 T hT
      rw [recordBumps_boundaryTable X nloci hs pre.length h hn hsize] at hscan
      cases hsl : scanLines X (Params.mk (boundaryTable nloci hs) fs NTRsize k hasConf)
          pre.length h.counted lines { read := [], i := 0, dbs := T } with
      | error e =>
        rw [hsl] at hscan
        simp only [] at hscan
        cases hsb : scanBumps (recordBumps X (Params.mk (boundaryTable nloci [h]) fs NTRsize k
            hasConf) 0 h.counted nloci) lines [] 0 with
        | error e2 =>
          rw [hsb] at hscan
          simp only [Except.error.injEq] at hscan
          rw [hscan]
        | ok ops => rw [hsb] at hscan; cases hscan
      | ok st =>
        rw [hsl] at hscan
        simp only [] at hscan
        cases hsb : scanBumps (recordBumps X (Params.mk (boundaryTable nloci [h]) fs NTRsize k
            hasConf) 0 h.counted nloci) lines [] 0 with
        | error e2 => rw [hsb] at hscan; cases hscan
        | ok ops =>
          rw [hsb] at hscan
          simp only [Except.ok.injEq] at hscan
          simp only []
          rw [hscan]
          exact hnext _ (sized_foldl X.cmod ops hT)

/-! ## Claim on the order of the haplotypes -/

/-- C8 (order independence of accumulation): with the extractor adding to the locus table,
for each k-mer of the window, 1 for a counted haplotype and 0 for a built-only one, the loop
over the haplotypes (each with its sequence file, its selection flag and its boundary
columns) run on a list of haplotypes and on any permutation of it either stops in both
orders or returns the same TR, left-NTR and right-NTR arrays, from any arrays of `nloci`
slots it starts with. -/
theorem accumulate_order_independent {κ : Type} [DecidableEq κ] (X : Extractor κ)
    (files : Str → FileText) (fs NTRsize k : Nat) (hasConf isFa masked : Bool) (nloci : Nat)
    (hs1 hs2 : List Haplotype) (hperm : hs1.Perm hs2) (hsize : 3 * hs1.length < SIZE)
    (T : Tables κ) (hT : Sized T nloci) :
    (accumulate X files (Params.mk (boundaryTable nloci hs1) fs NTRsize k hasConf) isFa masked
        (hs1.map (fun h => h.counted)) (hs1.map (fun h => h.name)) 0 T).toOption =
      (accumulate X files (Params.mk (boundaryTable nloci hs2) fs NTRsize k hasConf) isFa masked
        (hs2.map (fun h => h.counted)) (hs2.map (fun h => h.name)) 0 T).toOption ∧
    (∀ T1, accumulate X files (Params.mk (boundaryTable nloci hs1) fs NTRsize k hasConf) isFa
        masked (hs1.map (fun h => h.counted)) (hs1.map (fun h => h.name)) 0 T = .ok T1 ↔
      accumulate X files (Params.mk (boundaryTable nloci hs2) fs NTRsize k hasConf) isFa
        masked (hs2.map (fun h => h.counted)) (hs2.map (fun h => h.name)) 0 T = .ok T1) := by
  have hsize2 : 3 * hs2.length < SIZE := by rw [← hperm.length_eq]; exact hsize
  have h1 := accumulate_eq_foldBumps X files fs NTRsize k hasConf isFa masked nloci hs1 hsize
    hs1 [] T rfl hT
  have h2 := accumulate_eq_foldBumps X files fs NTRsize k hasConf isFa masked nloci hs2 hsize2
    hs2 [] T rfl hT
  simp only [List.length_nil] at h1 h2
  have hfold := foldBumps_perm X.cmod (ownBumps X files fs NTRsize k hasConf isFa masked nloci)
    hperm T
  rw [← h1, ← h2] at hfold
  refine ⟨hfold, ?_⟩
  intro T1
  have hopt : ∀ (e : Except Fault (Tables κ)), e = .ok T1 ↔ e.toOption = some T1 := by
    intro e
    cases e with
    | error x => simp [Except.toOption]
    | ok y => simp [Except.toOption]
  rw [hopt, hopt, hfold]

/-- Witness of C8: a counted and a built-only haplotype of one locus, in measured mode with
`NTRsize = 1`, `k = 3`, run in the orders `[H1, H2]` and `[H2, H1]`; both runs succeed. -/
theorem accumulate_order_independent_witness :
    (accumulate sampleExtractor sampleFiles (Params.mk (boundaryTable 1 [sampleH1, sampleH2])
        0 1 3 true) true true ([sampleH1, sampleH2].map (fun h => h.counted))
        ([sampleH1, sampleH2].map (fun h => h.name)) 0 (emptyTables Str 1)).toOption =
      (accumulate sampleExtractor sampleFiles (Params.mk (boundaryTable 1 [sampleH2, sampleH1])
        0 1 3 true) true true ([sampleH2, sampleH1].map (fun h => h.counted))
        ([sampleH2, sampleH1].map (fun h => h.name)) 0 (emptyTables Str 1)).toOption ∧
    (accumulate sampleExtractor sampleFiles (Params.mk (boundaryTable 1 [sampleH1, sampleH2])
        0 1 3 true) true true ([sampleH1, sampleH2].map (fun h => h.counted))
        ([sampleH1, sampleH2].map (fun h => h.name)) 0 (emptyTables Str 1)).toOption.isSome
      = true :=
  ⟨(accumulate_order_independent sampleExtractor sampleFiles 0 1 3 true true true 1
      [sampleH1, sampleH2] [sampleH2, sampleH1] (List.Perm.swap _ _ _)
      (by unfold SIZE; decide) (emptyTables Str 1) ⟨rfl, rfl, rfl⟩).1, by decide⟩

end VNTR2kmers
